import Mathlib

/-!
Verification of the extraction and aggregation core of `logseq-claude-indexer`.

The Go source is shallowly embedded: Go strings become `List Char` (all
patterns matched by the source are ASCII, so byte-level matching agrees with
character-level matching on valid UTF-8 input), Go slices become `List`,
Go maps become insertion-ordered association lists (Go map iteration order is
unspecified; every property proved below is insensitive to the order in which
entries are visited), `time.Duration` becomes `Int` nanoseconds and
`time.Time` becomes an explicit calendar representation.  Fallible Go code
returning `(T, error)` becomes `Except Unit T` or `Option T`.
-/

set_option maxRecDepth 100000

namespace Logseq

/-! ## Go string model

A Go string is modelled as its list of runes. -/
/-- Go string literal helper: a Lean string literal as a rune list. -/
def gs (s : String) : List Char := s.toList

/-- Go `unicode.IsSpace`: the Unicode white-space runes recognised by Go
(`\t \n \v \f \r`, space, NEL, NBSP and the Unicode space separators). -/
def goIsSpace (c : Char) : Bool :=
  c = ' ' ∨ c = '\t' ∨ c = '\n' ∨ c.toNat = 11 ∨ c.toNat = 12 ∨ c = '\r' ∨
  c.toNat = 0x85 ∨ c.toNat = 0xA0 ∨ c.toNat = 0x1680 ∨
  (0x2000 ≤ c.toNat ∧ c.toNat ≤ 0x200A) ∨
  c.toNat = 0x2028 ∨ c.toNat = 0x2029 ∨ c.toNat = 0x202F ∨
  c.toNat = 0x205F ∨ c.toNat = 0x3000

/-- Go `strings.TrimLeft(s, whitespace)` as used by `strings.TrimSpace`. -/
def goTrimLeft (s : List Char) : List Char := s.dropWhile goIsSpace

/-- Go trimming of trailing white space. -/
def goTrimRight (s : List Char) : List Char :=
  (s.reverse.dropWhile goIsSpace).reverse

/-- Go `strings.TrimSpace`. -/
def goTrimSpace (s : List Char) : List Char := goTrimRight (goTrimLeft s)

/-- Worker for `goIndex`: index of the first occurrence of `pat` in `s`,
counting from `i`. -/
def goIndexAux (pat : List Char) : List Char → Nat → Option Nat
  | [], i => if pat.isEmpty then some i else none
  | c :: rest, i =>
    if pat.isPrefixOf (c :: rest) then some i else goIndexAux pat rest (i + 1)

/-- Go `strings.Index(s, pat)`, as an `Option` instead of `-1` for "absent". -/
def goIndex (s pat : List Char) : Option Nat := goIndexAux pat s 0

/-- Go `strings.Contains(s, pat)`. -/
def goContains (s pat : List Char) : Bool := (goIndex s pat).isSome

/-- Go `strings.Replace(s, old, new, 1)` for non-empty `old`: replace the
first occurrence, if any. -/
def goReplaceOnce (s old new : List Char) : List Char :=
  match goIndex s old with
  | none => s
  | some i => s.take i ++ new ++ s.drop (i + old.length)

/-- Worker for `goSplitStr`: scan left to right for non-overlapping
occurrences of `sep`, accumulating the current field reversed.  The fuel
argument (an upper bound on the scanned length, so the zero case is never
reached from `goSplitStr`) keeps the recursion structural so that the
function reduces inside the kernel. -/
def goSplitAux (sep : List Char) : Nat → List Char → List Char → List (List Char)
  | _, [], acc => [acc.reverse]
  | 0, s, acc => [acc.reverse ++ s]
  | fuel + 1, c :: rest, acc =>
    if sep.isPrefixOf (c :: rest) then
      acc.reverse :: goSplitAux sep fuel (rest.drop (sep.length - 1)) []
    else goSplitAux sep fuel rest (c :: acc)

/-- Go `strings.Split(s, sep)` for the non-empty separators used by the
source. -/
def goSplitStr (s sep : List Char) : List (List Char) :=
  goSplitAux sep s.length s []

/-- Go `strings.Fields`: the maximal runs of non-white-space runes. -/
def goFields (s : List Char) : List (List Char) :=
  (s.splitOnP (fun c => goIsSpace c = true)).filter (fun w => ¬ w.isEmpty)

/-! ## Calendar arithmetic

Day numbers count days since 1970-01-01 (Howard Hinnant's `days_from_civil`,
with floor division). -/
/-- Day number of a civil date, relative to the Unix epoch. -/
def daysFromCivil (y m d : Int) : Int :=
  let y2 := if m ≤ 2 then y - 1 else y
  let era := Int.fdiv y2 400
  let yoe := y2 - era * 400
  let mp := if 2 < m then m - 3 else m + 9
  let doy := Int.fdiv (153 * mp + 2) 5 + d - 1
  let doe := yoe * 365 + Int.fdiv yoe 4 - Int.fdiv yoe 100 + doy
  era * 146097 + doe - 719468

/-- Model of a Go `time.Time` as used by `getWeekStart`: the local calendar
date as a day number, the second of the local day, and an opaque location
tag (`time.Location`). -/
@[ext]
structure TZTime where
  days : Int
  tod : Int
  loc : List Char
deriving Repr, DecidableEq

/-- Go `t.Weekday()` (`0` = Sunday … `6` = Saturday): the epoch day was a
Thursday (`4`), and `Weekday` is computed from the local calendar date. -/
def goWeekday (t : TZTime) : Int := (t.days + 4) % 7

/-- `getWeekStart` from the time-tracking indexer: `t.AddDate(0, 0, -n)`
shifts the calendar date by `n` days, and
`time.Date(y, m, d, 0, 0, 0, 0, loc)` is midnight of that date in `loc`.
The first assignment to `daysToMonday` in the source is immediately
overwritten by the `if`/`else`, and is reproduced here by shadowing. -/
def getWeekStart (t : TZTime) : TZTime :=
  let weekday := goWeekday t
  let daysToMonday := (weekday + 6) % 7
  let daysToMonday := if weekday = 0 then 6 else weekday - 1
  ⟨t.days - daysToMonday, 0, t.loc⟩

/-! ## Missing-page type classification -/
/-- Worker for `looksLikeName`: Go's per-word check (`false` for an empty
word, otherwise the first rune must be an ASCII capital). -/
def goUpperStart (w : List Char) : Bool :=
  match w with
  | [] => false
  | c :: _ => decide ('A' ≤ c ∧ c ≤ 'Z')

/-- `looksLikeName` from the missing-pages indexer. -/
def looksLikeName (s : List Char) : Bool :=
  let words := goFields s
  if words.length < 2 ∨ 4 < words.length then false
  else words.all goUpperStart

/-- The `dateKeywords` literal from `classifyPageType`. -/
def dateKeywords : List (List Char) :=
  [gs "Jan", gs "Feb", gs "Mar", gs "Apr", gs "May", gs "Jun", gs "Jul",
   gs "Aug", gs "Sep", gs "Oct", gs "Nov", gs "Dec",
   gs "th,", gs "st,", gs "nd,", gs "rd,"]

/-- The `projectKeywords` literal from `classifyPageType`. -/
def projectKeywords : List (List Char) :=
  [gs "Sprint", gs "Project", gs "Phase", gs "Release", gs "Milestone"]

/-- The `techKeywords` literal from `classifyPageType`. -/
def techKeywords : List (List Char) :=
  [gs "API", gs "Service", gs "Architecture", gs "System", gs "Design",
   gs "Framework", gs "Database", gs "Server", gs "Team", gs "Stack",
   gs "Platform"]

/-- `classifyPageType` from the missing-pages indexer.  A `for` loop that
returns a constant on the first keyword hit is rendered as `List.any`. -/
def classifyPageType (pageName : List Char) : List Char :=
  if goContains pageName (gs " - ") then
    let parts := goSplitStr pageName (gs " - ")
    if parts.length = 2 ∧ looksLikeName parts.headI then gs "person"
    else gs "concept"
  else if dateKeywords.any (fun k => goContains pageName k) then gs "date"
  else if projectKeywords.any (fun k => goContains pageName k) then gs "project"
  else if techKeywords.any (fun k => goContains pageName k) then gs "concept"
  else
    let words := goFields pageName
    if 2 ≤ words.length ∧ words.length ≤ 3 ∧ looksLikeName pageName then
      gs "person"
    else gs "concept"

/-- Rule (a) of the claim, in the claim's own words: the name contains
`" - "` and the part before it (the text before the first occurrence)
looks like a 2-4-word each-capitalized name. -/
def claimRuleAPerson (n : List Char) : Bool :=
  goContains n (gs " - ") &&
    looksLikeName (n.take ((goIndex n (gs " - ")).getD n.length))

/-- The classifier as the spec's design notes ask for it: an explicit
ordered list of predicate-label rules, first match wins, with the amended
rule (a): it applies only when splitting on `" - "` yields exactly two
parts. -/
def classifyRules : List ((List Char → Bool) × List Char) :=
  [(fun n => goContains n (gs " - ") &&
      (decide ((goSplitStr n (gs " - ")).length = 2) &&
        looksLikeName (goSplitStr n (gs " - ")).headI), gs "person"),
   (fun n => goContains n (gs " - "), gs "concept"),
   (fun n => dateKeywords.any (fun k => goContains n k), gs "date"),
   (fun n => projectKeywords.any (fun k => goContains n k), gs "project"),
   (fun n => techKeywords.any (fun k => goContains n k), gs "concept"),
   (fun n => decide (2 ≤ (goFields n).length ∧ (goFields n).length ≤ 3) &&
      looksLikeName n, gs "person")]

/-- First-match-wins evaluation of `classifyRules`, defaulting to
`concept`. -/
def firstMatchClassify (n : List Char) : List Char :=
  match classifyRules.find? (fun r => r.1 n) with
  | some r => r.2
  | none => gs "concept"

/-! ## Generic insertion sort

Models the effect of Go's `sort.Slice`: the source relies only on the
output being a permutation of the input that is sorted for the supplied
comparison (Go's sort is unstable, so no property below depends on the
order of ties). -/
/-- Insert `x` into `l` before the first element `y` with `le x y`. -/
def insertSorted (le : α → α → Bool) (x : α) : List α → List α
  | [] => [x]
  | y :: ys => if le x y then x :: y :: ys else y :: insertSorted le x ys

/-- Insertion sort for the Boolean comparison `le`. -/
def insertionSortBy (le : α → α → Bool) : List α → List α
  | [] => []
  | x :: xs => insertSorted le x (insertionSortBy le xs)

/-! ## The reference graph -/
/-- Kind of a scanned note (`models.FileType`). -/
inductive FileType where
  | journal
  | page
deriving Repr, DecidableEq

/-- A scanned note (`models.File`) as consumed by the indexers. -/
structure GoFile where
  path : List Char
  type : FileType
deriving Repr, DecidableEq

/-- `models.PageReference`: one `[[target]]` occurrence. -/
structure PageReference where
  sourceFile : List Char
  sourcePage : List Char
  targetPage : List Char
  lineNumber : Nat
  context : List Char
deriving Repr, DecidableEq

/-- `GraphNode` from the graph indexer. -/
structure GraphNode where
  pageName : List Char
  filePath : List Char
  outboundRefs : List (List Char)
  inboundRefs : List (List Char)
  referenceCount : Nat
deriving Repr, DecidableEq

/-- Go's `map[string]*GraphNode`, modelled as an insertion-ordered
association list with pairwise-distinct keys (established separately). -/
abbrev NodeMap := List (List Char × GraphNode)

/-- Map read `m[k]`. -/
def mapLookup (m : NodeMap) (k : List Char) : Option GraphNode :=
  (m.find? (fun e => decide (e.1 = k))).map (fun e => e.2)

/-- Map write `m[k] = v`. -/
def mapSet (m : NodeMap) (k : List Char) (v : GraphNode) : NodeMap :=
  if (m.find? (fun e => decide (e.1 = k))).isSome then
    m.map (fun e => if e.1 = k then (e.1, v) else e)
  else m ++ [(k, v)]

/-- In-place mutation through the `*GraphNode` held in the map. -/
def mapUpdate (m : NodeMap) (k : List Char) (f : GraphNode → GraphNode) :
    NodeMap :=
  m.map (fun e => if e.1 = k then (e.1, f e.2) else e)

/-- `contains` from the graph indexer: membership in a string slice. -/
def containsStr (slice : List (List Char)) (value : List Char) : Bool :=
  slice.any (fun item => decide (item = value))

/-- `extractPageNameFromPath` from the graph indexer: the basename after
the last `/` or `\`, with a trailing `.md` removed when the basename is
longer than 3 runes. -/
def extractPageNameFromPath (filePath : List Char) : List Char :=
  let basename :=
    (filePath.reverse.takeWhile (fun c => ¬ (c = '/' ∨ c = '\\'))).reverse
  if 3 < basename.length ∧ (gs ".md").isSuffixOf basename then
    basename.take (basename.length - 3)
  else basename

/-- Node seeding: one node per file, keyed by page name (a later file with
the same page name overwrites, as a Go map assignment does). -/
def seedNodes (files : List GoFile) : NodeMap :=
  files.foldl
    (fun m file =>
      let pageName := extractPageNameFromPath file.path
      mapSet m pageName ⟨pageName, file.path, [], [], 0⟩)
    []

/-- First block of the reference loop body: if a node exists for the
source page, append the target to its outbound list unless present. -/
def addRefOutbound (m : NodeMap) (ref : PageReference) : NodeMap :=
  match mapLookup m ref.sourcePage with
  | some node =>
    if containsStr node.outboundRefs ref.targetPage then m
    else
      mapUpdate m ref.sourcePage
        (fun n => { n with outboundRefs := n.outboundRefs ++ [ref.targetPage] })
  | none => m

/-- Second block: ensure a node exists for the target page, creating a
phantom (empty file path) if missing. -/
def ensureTargetNode (m : NodeMap) (ref : PageReference) : NodeMap :=
  if (mapLookup m ref.targetPage).isSome then m
  else m ++ [(ref.targetPage, ⟨ref.targetPage, [], [], [], 0⟩)]

/-- Third block: append the source to the target's inbound list unless
present, incrementing the inbound count exactly on a new entry. -/
def addRefInbound (m : NodeMap) (ref : PageReference) : NodeMap :=
  match mapLookup m ref.targetPage with
  | some targetNode =>
    if containsStr targetNode.inboundRefs ref.sourcePage then m
    else
      mapUpdate m ref.targetPage
        (fun n =>
          { n with
            inboundRefs := n.inboundRefs ++ [ref.sourcePage]
            referenceCount := n.referenceCount + 1 })
  | none => m

/-- The body of the reference loop in `BuildReferenceGraph` for one
`PageReference`. -/
def addRef (m : NodeMap) (ref : PageReference) : NodeMap :=
  addRefInbound (ensureTargetNode (addRefOutbound m ref) ref) ref

/-- `findHubPages`: names of the up-to-`topN` nodes with positive inbound
count, by count descending. -/
def findHubPages (nodes : NodeMap) (topN : Nat) : List (List Char) :=
  let counts := nodes.filterMap
    (fun e => if 0 < e.2.referenceCount then some (e.1, e.2.referenceCount)
              else none)
  let sorted := insertionSortBy (fun a b => decide (b.2 ≤ a.2)) counts
  (sorted.take topN).map (fun e => e.1)

/-- `ReferenceGraph` (the `GeneratedAt` wall-clock stamp is omitted: no
claim mentions it and it depends on `time.Now()`). -/
structure ReferenceGraph where
  nodes : NodeMap
  hubPages : List (List Char)
deriving Repr, DecidableEq

/-- `BuildReferenceGraph` from the graph indexer. -/
def BuildReferenceGraph (refs : List PageReference) (files : List GoFile) :
    ReferenceGraph :=
  let seeded := seedNodes files
  let nodes := refs.foldl addRef seeded
  ⟨nodes, findHubPages nodes 10⟩

/-! ## Graph invariants -/
instance : Nonempty GraphNode := ⟨⟨[], [], [], [], 0⟩⟩

instance : Nonempty (List Char × GraphNode) := ⟨([], ⟨[], [], [], [], 0⟩)⟩

instance : Nonempty NodeMap := ⟨[]⟩

/-- The keys of a node map. -/
def mapKeys (m : NodeMap) : List (List Char) := m.map Prod.fst

/-- The per-node invariant of claim C4. -/
def nodeInv (n : GraphNode) : Prop :=
  n.referenceCount = n.inboundRefs.length ∧ n.inboundRefs.Nodup ∧
    n.outboundRefs.Nodup

instance (n : GraphNode) : Decidable (nodeInv n) := by
  unfold nodeInv
  infer_instance

/-- The whole-map invariant carried through graph construction. -/
def graphInv (m : NodeMap) : Prop :=
  (mapKeys m).Nodup ∧ ∀ e ∈ m, nodeInv e.2

/-- A file list used to instantiate the graph theorems. -/
def demoFiles : List GoFile :=
  [⟨gs "pages/A.md", FileType.page⟩, ⟨gs "pages/B.md", FileType.page⟩]

/-- Link records used to instantiate the graph theorems: A links to B and
C, B links to C twice. -/
def demoRefs : List PageReference :=
  [⟨gs "pages/A.md", gs "A", gs "B", 1, []⟩,
   ⟨gs "pages/A.md", gs "A", gs "C", 2, []⟩,
   ⟨gs "pages/B.md", gs "B", gs "C", 1, []⟩,
   ⟨gs "pages/B.md", gs "B", gs "C", 1, []⟩]

/-! ## Hub pages (claim C10) -/
/-- Inbound-reference count of a page name in a node map (0 if absent). -/
def hubCount (nodes : NodeMap) (name : List Char) : Nat :=
  match mapLookup nodes name with
  | some n => n.referenceCount
  | none => 0

/-! ## Missing pages index (claim C5) -/
/-- `MissingPage` from the missing-pages indexer. -/
structure MissingPage where
  name : List Char
  referenceCount : Nat
  pageType : List Char
  referencedFrom : List (List Char)
deriving Repr, DecidableEq

/-- `MissingPagesIndex` from the missing-pages indexer. -/
structure MissingPagesIndex where
  missingPages : List MissingPage
  threshold : Int
deriving Repr, DecidableEq

/-- The `seen`-map dedup loop of `BuildMissingPagesIndex`: keep the first
occurrence of each source page. -/
def dedupAux (seen : List (List Char)) : List (List Char) → List (List Char)
  | [] => []
  | x :: xs =>
    if containsStr seen x then dedupAux seen xs
    else x :: dedupAux (x :: seen) xs

/-- Deduplication preserving first occurrences. -/
def dedupFirst (l : List (List Char)) : List (List Char) := dedupAux [] l

/-- The body of the collection loop of `BuildMissingPagesIndex` for one
node-map entry. -/
def mkMissingPage (pageName : List Char) (node : GraphNode) : MissingPage :=
  let referencedFrom := dedupFirst node.inboundRefs
  let referencedFrom :=
    if 10 < referencedFrom.length then referencedFrom.take 10
    else referencedFrom
  ⟨pageName, node.referenceCount, classifyPageType pageName, referencedFrom⟩

/-- The two `continue` guards of the collection loop. -/
def missingPageSelector (threshold : Int) (e : List Char × GraphNode) :
    Option MissingPage :=
  if e.2.filePath ≠ [] then none
  else if (e.2.referenceCount : Int) < threshold then none
  else some (mkMissingPage e.1 e.2)

/-- `BuildMissingPagesIndex` from the missing-pages indexer. -/
def BuildMissingPagesIndex (graph : ReferenceGraph) (threshold : Int) :
    MissingPagesIndex :=
  let collected := graph.nodes.filterMap (missingPageSelector threshold)
  ⟨insertionSortBy
      (fun a b => decide (b.referenceCount ≤ a.referenceCount)) collected,
    threshold⟩

/-- Five sources referencing `Phantom5` and four referencing `Phantom4`,
for the threshold-boundary instance of C5. -/
def boundaryRefs : List PageReference :=
  [⟨gs "pages/s1.md", gs "s1", gs "Phantom5", 1, []⟩,
   ⟨gs "pages/s2.md", gs "s2", gs "Phantom5", 1, []⟩,
   ⟨gs "pages/s3.md", gs "s3", gs "Phantom5", 1, []⟩,
   ⟨gs "pages/s4.md", gs "s4", gs "Phantom5", 1, []⟩,
   ⟨gs "pages/s5.md", gs "s5", gs "Phantom5", 1, []⟩,
   ⟨gs "pages/s1.md", gs "s1", gs "Phantom4", 2, []⟩,
   ⟨gs "pages/s2.md", gs "s2", gs "Phantom4", 2, []⟩,
   ⟨gs "pages/s3.md", gs "s3", gs "Phantom4", 2, []⟩,
   ⟨gs "pages/s4.md", gs "s4", gs "Phantom4", 2, []⟩]

/-! ## Task model -/
/-- `models.TaskStatus` (only the five constants occur). -/
inductive TaskStatus where
  | NOW
  | LATER
  | TODO
  | DOING
  | DONE
deriving Repr, DecidableEq

/-- The string value of a status constant. -/
def statusStr : TaskStatus → List Char
  | .NOW => gs "NOW"
  | .LATER => gs "LATER"
  | .TODO => gs "TODO"
  | .DOING => gs "DOING"
  | .DONE => gs "DONE"

/-- `models.Priority` (`A`, `B`, `C` or the empty string). -/
inductive Priority where
  | A
  | B
  | C
  | none
deriving Repr, DecidableEq

/-- The letter of a non-empty priority. -/
def priorityStr : Priority → List Char
  | .A => gs "A"
  | .B => gs "B"
  | .C => gs "C"
  | .none => []

/-- A parsed `time.Time` (the clock layout carries no zone, so Go produces
UTC; the fields are the parsed components). -/
structure DateTime where
  year : Int
  month : Nat
  day : Nat
  hour : Nat
  minute : Nat
  second : Nat
deriving Repr, DecidableEq

/-- Absolute second count of a `DateTime` (for `Sub`/`After`/`Before`). -/
def toAbsSec (t : DateTime) : Int :=
  daysFromCivil t.year (t.month : Int) (t.day : Int) * 86400 +
    (t.hour : Int) * 3600 + (t.minute : Int) * 60 + (t.second : Int)

/-- Go `a.After(b)`. -/
def dtAfter (a b : DateTime) : Bool := decide (toAbsSec b < toAbsSec a)

/-- Go's zero `time.Time` (January 1, year 1, UTC). -/
def goZeroTime : DateTime := ⟨1, 1, 1, 0, 0, 0⟩

/-- `models.LogbookEntry`.  `End` is a Lean keyword, hence `stop`.
Durations are `time.Duration`, i.e. nanoseconds. -/
structure LogbookEntry where
  start : DateTime
  stop : DateTime
  duration : Int
deriving Repr, DecidableEq

/-- `models.Task`. -/
structure Task where
  status : TaskStatus
  priority : Priority
  description : List Char
  pageRefs : List (List Char)
  sourceFile : List Char
  lineNumber : Nat
  logbook : List LogbookEntry
deriving Repr, DecidableEq

instance : Nonempty Task :=
  ⟨⟨.NOW, .none, [], [], [], 0, []⟩⟩

/-- `Task.TotalDuration`: sum of the logbook durations. -/
def Task.totalDuration (t : Task) : Int :=
  t.logbook.foldl (fun total entry => total + entry.duration) 0

/-! ## Task index (claim C3) -/
/-- `TaskStatistics` from the task indexer.  The two `float64` rates are
modelled as rationals; every value the claims mention is exactly
representable in binary floating point, so the factor-of-100 question the
claim turns on is unaffected by rounding. -/
structure TaskStatistics where
  completionRate : ℚ
  priorityBreakdown : Priority → Nat
  statusBreakdown : TaskStatus → Nat
  withTimeTracking : Nat
  totalTimeLogged : Int
  trackingAdoption : ℚ

/-- `TaskIndex` from the task indexer (Go maps become functions or
insertion-ordered association lists; `GeneratedAt` is omitted). -/
structure TaskIndex where
  totalTasks : Nat
  byStatus : TaskStatus → List Task
  byPriority : Priority → List Task
  byProject : List (List Char × List Task)
  recent : List Task
  statistics : TaskStatistics

/-- `index.ByProject[project] = append(index.ByProject[project], task)`. -/
def projUpdate (m : List (List Char × List Task)) (k : List Char) (t : Task) :
    List (List Char × List Task) :=
  if (m.find? (fun e => decide (e.1 = k))).isSome then
    m.map (fun e => if e.1 = k then (e.1, e.2 ++ [t]) else e)
  else m ++ [(k, [t])]

/-- `hasRecentActivity`: some logbook entry starts or ends after `since`
(an absolute second count, the captured `time.Now().AddDate(0, 0, -30)`). -/
def hasRecentActivity (task : Task) (since : Int) : Bool :=
  task.logbook.any
    (fun entry =>
      decide (since < toAbsSec entry.start) ||
        decide (since < toAbsSec entry.stop))

/-- `getMostRecentTime`: latest logbook end, or the zero time. -/
def getMostRecentTime (task : Task) : DateTime :=
  match task.logbook with
  | [] => goZeroTime
  | e :: rest =>
    rest.foldl
      (fun mostRecent entry =>
        if dtAfter entry.stop mostRecent then entry.stop else mostRecent)
      e.stop

/-- The body of the main loop of `BuildTaskIndex` for one task. -/
def taskIndexStep (thirtyDaysAgo : Int) (idx : TaskIndex) (task : Task) :
    TaskIndex :=
  { idx with
    byStatus := fun st =>
      if st = task.status then idx.byStatus st ++ [task] else idx.byStatus st
    byPriority := fun p =>
      if p = task.priority then idx.byPriority p ++ [task]
      else idx.byPriority p
    byProject :=
      if 0 < task.pageRefs.length then
        projUpdate idx.byProject task.pageRefs.headI task
      else idx.byProject
    recent :=
      if hasRecentActivity task thirtyDaysAgo then idx.recent ++ [task]
      else idx.recent
    statistics :=
      { idx.statistics with
        statusBreakdown := fun st =>
          if st = task.status then idx.statistics.statusBreakdown st + 1
          else idx.statistics.statusBreakdown st
        priorityBreakdown := fun p =>
          if p = task.priority then idx.statistics.priorityBreakdown p + 1
          else idx.statistics.priorityBreakdown p
        withTimeTracking :=
          if 0 < task.logbook.length then idx.statistics.withTimeTracking + 1
          else idx.statistics.withTimeTracking
        totalTimeLogged :=
          if 0 < task.logbook.length then
            idx.statistics.totalTimeLogged + task.totalDuration
          else idx.statistics.totalTimeLogged } }

/-- The empty index `BuildTaskIndex` starts from (all status and priority
buckets present and empty, zero statistics). -/
def initialTaskIndex (totalTasks : Nat) : TaskIndex :=
  ⟨totalTasks, fun _ => [], fun _ => [], [], [],
    ⟨0, fun _ => 0, fun _ => 0, 0, 0, 0⟩⟩

/-- `BuildTaskIndex` from the task indexer.  `thirtyDaysAgo` is the
captured `time.Now().AddDate(0, 0, -30)` instant as an absolute second
count. -/
def BuildTaskIndex (tasks : List Task) (thirtyDaysAgo : Int) : TaskIndex :=
  let afterLoop :=
    tasks.foldl (taskIndexStep thirtyDaysAgo) (initialTaskIndex tasks.length)
  let sortedRecent := insertionSortBy
    (fun a b => decide (toAbsSec (getMostRecentTime b) ≤
      toAbsSec (getMostRecentTime a)))
    afterLoop.recent
  { afterLoop with
    recent := sortedRecent
    statistics :=
      { afterLoop.statistics with
        completionRate :=
          if 0 < tasks.length then
            ((afterLoop.statistics.statusBreakdown TaskStatus.DONE : ℚ) /
              (tasks.length : ℚ)) * 100
          else afterLoop.statistics.completionRate
        trackingAdoption :=
          if 0 < tasks.length then
            ((afterLoop.statistics.withTimeTracking : ℚ) /
              (tasks.length : ℚ)) * 100
          else afterLoop.statistics.trackingAdoption } }

/-- Example tasks for the completion-rate counterexample. -/
def doneTask : Task := ⟨.DONE, .none, gs "d", [], gs "pages/x.md", 1, []⟩

/-- Second example task for the completion-rate counterexample. -/
def nowTask : Task := ⟨.NOW, .none, gs "n", [], gs "pages/x.md", 2, []⟩

section AList

variable {κ α : Type} [DecidableEq κ]

/-! ## Generic association list helpers (for the timeline's day map) -/
/-- Map read for an association list. -/
def alookup (m : List (κ × α)) (k : κ) : Option α :=
  (m.find? (fun e => decide (e.1 = k))).map (fun e => e.2)

/-- Keys of an association list. -/
def akeys (m : List (κ × α)) : List κ := m.map Prod.fst

/-- In-place mutation of every entry with the given key. -/
def aupdate (m : List (κ × α)) (k : κ) (f : α → α) : List (κ × α) :=
  m.map (fun e => if e.1 = k then (e.1, f e.2) else e)

end AList

/-! ## Timeline (claim C7) -/
/-- Go `filepath.Base` on slash-separated paths. -/
def goFilepathBase (p : List Char) : List Char :=
  if p.isEmpty then gs "." else
  let p2 := (p.reverse.dropWhile (fun c => c = '/')).reverse
  if p2.isEmpty then gs "/" else
  (p2.reverse.takeWhile (fun c => ¬ c = '/')).reverse

/-- Go `strings.TrimSuffix(name, ".md")`. -/
def goTrimSuffixMd (name : List Char) : List Char :=
  if (gs ".md").isSuffixOf name then name.take (name.length - 3) else name

/-- Whether a character is an ASCII digit. -/
def isDigitCh (c : Char) : Bool := decide ('0' ≤ c ∧ c ≤ '9')

/-- Value of a digit character. -/
def digitVal (c : Char) : Nat := c.toNat - '0'.toNat

/-- Go's internal `atoi` used by `time.Parse` for the 4-rune year field:
optional sign, then digits only. -/
def goAtoi (s : List Char) : Option Int :=
  match s with
  | [] => none
  | '-' :: rest =>
    if rest ≠ [] ∧ rest.all isDigitCh then
      some (-(rest.foldl (fun a c => a * 10 + digitVal c) 0 : Int))
    else none
  | '+' :: rest =>
    if rest ≠ [] ∧ rest.all isDigitCh then
      some ((rest.foldl (fun a c => a * 10 + digitVal c) 0 : Int))
    else none
  | _ =>
    if s.all isDigitCh then
      some ((s.foldl (fun a c => a * 10 + digitVal c) 0 : Int))
    else none

/-- Two fixed digits (`getnum` with a zero-padded layout element). -/
def parse2Digits (s : List Char) : Option (Nat × List Char) :=
  match s with
  | c1 :: c2 :: rest =>
    if isDigitCh c1 ∧ isDigitCh c2 then
      some (digitVal c1 * 10 + digitVal c2, rest)
    else none
  | _ => none

/-- Whether a year is a leap year (Gregorian). -/
def isLeapYear (y : Int) : Bool :=
  y % 4 = 0 ∧ (y % 100 ≠ 0 ∨ y % 400 = 0)

/-- Days in a month, as checked by Go's `Parse` ("day out of range for
month"). -/
def daysIn (m : Nat) (y : Int) : Nat :=
  if m = 2 then (if isLeapYear y then 29 else 28)
  else if m = 4 ∨ m = 6 ∨ m = 9 ∨ m = 11 then 30
  else 31

/-- Go `time.Parse("2006<sep>01<sep>02", s)`: a 4-rune year (internal
`atoi`), the separator, two fixed month digits, the separator, two fixed
day digits, nothing left over, with month and day range checks. -/
def goParseDate (sep : Char) (s : List Char) : Option DateTime :=
  match s with
  | c1 :: c2 :: c3 :: c4 :: rest =>
    match goAtoi [c1, c2, c3, c4] with
    | none => none
    | some y =>
      match rest with
      | sep1 :: rest1 =>
        if sep1 = sep then
          match parse2Digits rest1 with
          | none => none
          | some (mo, rest2) =>
            match rest2 with
            | sep2 :: rest3 =>
              if sep2 = sep then
                match parse2Digits rest3 with
                | none => none
                | some (d, rest4) =>
                  if rest4 = [] ∧ 1 ≤ mo ∧ mo ≤ 12 ∧ 1 ≤ d ∧
                      d ≤ daysIn mo y then
                    some ⟨y, mo, d, 0, 0, 0⟩
                  else none
              else none
            | [] => none
        else none
      | [] => none
  | _ => none

/-- `extractDateFromJournalPath` from the timeline indexer: strip the
directory and a `.md` suffix, then try the underscore layout (when the
name contains `_`) and the hyphen layout (when it contains `-`). -/
def extractDateFromJournalPath (path : List Char) : Option DateTime :=
  let filename := goTrimSuffixMd (goFilepathBase path)
  match (if goContains filename (gs "_") then goParseDate '_' filename
         else none) with
  | some t => some t
  | none =>
    if goContains filename (gs "-") then goParseDate '-' filename else none

/-- `TimelineDay` from the timeline indexer. -/
@[ext]
structure TimelineDay where
  date : DateTime
  journalPath : List Char
  tasksCreated : List Task
  timeLogged : Int
  keyActivity : List (List Char)
deriving Repr, DecidableEq

/-- The day map, keyed by the parsed date.  The Go code keys by
`date.Format("2006-01-02")`; on the dates this parser can produce,
that rendering is injective, so keying by the date itself is
equivalent. -/
abbrev DayMap := List (DateTime × TimelineDay)

/-- `TimelineIndex` (`GeneratedAt` omitted as before). -/
structure TimelineIndex where
  entries : List TimelineDay
deriving Repr, DecidableEq

/-- One step of the day-seeding loop of `BuildTimelineIndex`. -/
def seedStep (m : DayMap) (file : GoFile) : DayMap :=
  if file.type = FileType.journal then
    match extractDateFromJournalPath file.path with
    | some date =>
      if (alookup m date).isSome then m
      else m ++ [(date, ⟨date, file.path, [], 0, []⟩)]
    | none => m
  else m

/-- First loop of `BuildTimelineIndex`: seed one day per parsed date of a
journal file, keeping the first file's path. -/
def seedDays (files : List GoFile) : DayMap :=
  files.foldl seedStep []

/-- Sum of total logged durations of a task list. -/
def sumDur (tasks : List Task) : Int :=
  tasks.foldl (fun total t => total + t.totalDuration) 0

/-- One step of the task-attachment loop of `BuildTimelineIndex`. -/
def attachStep (m : DayMap) (task : Task) : DayMap :=
  match extractDateFromJournalPath task.sourceFile with
  | some date =>
    if (alookup m date).isSome then
      aupdate m date
        (fun day =>
          { day with
            tasksCreated := day.tasksCreated ++ [task]
            timeLogged := day.timeLogged + task.totalDuration })
    else m
  | none => m

/-- Second loop of `BuildTimelineIndex`: attach each task whose source
file parses to a seeded date. -/
def attachTasks (m : DayMap) (tasks : List Task) : DayMap :=
  tasks.foldl attachStep m

/-- `formatTaskCount`: singular/plural rendering of a status count. -/
def formatTaskCount (count : Nat) (status : TaskStatus) : List Char :=
  if count = 1 then gs "1 " ++ statusStr status ++ gs " task"
  else (Nat.repr count).toList ++ [' '] ++ statusStr status ++ gs " tasks"

/-- `generateKeyActivity`: per-status summary lines in the fixed order
NOW, DOING, TODO, LATER, DONE, then up to two high-priority highlights
with the description truncated to 60 runes. -/
def generateKeyActivity (day : TimelineDay) : List (List Char) :=
  if day.tasksCreated.length = 0 then [] else
  let statusCount := fun st =>
    day.tasksCreated.countP (fun t => decide (t.status = st))
  let highPriorityTasks :=
    day.tasksCreated.filter (fun t => decide (t.priority = Priority.A))
  let activity :=
    (if 0 < statusCount TaskStatus.NOW then
      [formatTaskCount (statusCount TaskStatus.NOW) TaskStatus.NOW] else []) ++
    (if 0 < statusCount TaskStatus.DOING then
      [formatTaskCount (statusCount TaskStatus.DOING) TaskStatus.DOING] else []) ++
    (if 0 < statusCount TaskStatus.TODO then
      [formatTaskCount (statusCount TaskStatus.TODO) TaskStatus.TODO] else []) ++
    (if 0 < statusCount TaskStatus.LATER then
      [formatTaskCount (statusCount TaskStatus.LATER) TaskStatus.LATER] else []) ++
    (if 0 < statusCount TaskStatus.DONE then
      [formatTaskCount (statusCount TaskStatus.DONE) TaskStatus.DONE] else [])
  activity ++
    (highPriorityTasks.take 2).map
      (fun t =>
        gs "🔥 " ++
          (if 60 < t.description.length then t.description.take 57 ++ gs "..."
           else t.description))

/-- Third loop of `BuildTimelineIndex`: store each day's generated
digest. -/
def digestEntry (e : DateTime × TimelineDay) : DateTime × TimelineDay :=
  (e.1, { e.2 with keyActivity := generateKeyActivity e.2 })

/-- `BuildTimelineIndex` from the timeline indexer: seed days from journal
files, attach tasks, generate each day's digest, and emit the days sorted
newest first. -/
def BuildTimelineIndex (tasks : List Task) (files : List GoFile) :
    TimelineIndex :=
  ⟨insertionSortBy
      (fun a b => decide (toAbsSec b.date ≤ toAbsSec a.date))
      (((attachTasks (seedDays files) tasks).map digestEntry).map
        (fun e => e.2))⟩

/-- What the attachment loop does to the day stored at key `k`. -/
def attachEvo (tasks : List Task) (k : DateTime) (day : TimelineDay) :
    TimelineDay :=
  { day with
    tasksCreated := day.tasksCreated ++ tasks.filter
      (fun t => decide (extractDateFromJournalPath t.sourceFile = some k))
    timeLogged := day.timeLogged + sumDur (tasks.filter
      (fun t => decide (extractDateFromJournalPath t.sourceFile = some k))) }

/-- The per-entry invariant established by seeding: the stored day carries
its key as date, no tasks and no time. -/
def seedEntryInv (e : DateTime × TimelineDay) : Prop :=
  e.2.date = e.1 ∧ e.2.tasksCreated = [] ∧ e.2.timeLogged = 0

/-- Input for the timeline witness. -/
def witnessFiles : List GoFile :=
  [⟨gs "journals/2025_11_05.md", FileType.journal⟩]

/-! ## Clock-line parsing (claim C1)

`clockLineRegex` is `CLOCK:\s*\[([^\]]+)\]--\[([^\]]+)\]\s*=>\s*(.+)` with
Go's leftmost-first matching.  Because `[^\]]+` cannot cross a `]` and the
literals after each `\s*` are not white space, the only backtracking the
pattern admits is in the final `\s*(.+)`; the functions below implement
exactly that search. -/
/-- Go regexp `\s`: `[\t\n\f\r ]`. -/
def goIsRegexSpace (c : Char) : Bool :=
  c = '\t' ∨ c = '\n' ∨ c.toNat = 12 ∨ c = '\r' ∨ c = ' '

/-- Backtracking for the trailing `\s*(.+)`: try to start the `(.+)` group
after `j` white-space runes, longest prefix first. -/
def tailTry (r8 : List Char) : Nat → Option (List Char)
  | 0 =>
    let cand := r8.takeWhile (fun c => ¬ c = '\n')
    if ¬ cand.isEmpty then some cand else none
  | j + 1 =>
    let cand := (r8.drop (j + 1)).takeWhile (fun c => ¬ c = '\n')
    if ¬ cand.isEmpty then some cand else tailTry r8 j

/-- Match `\s*(.+)` against the whole of `r8`, greedily. -/
def tailMatch (r8 : List Char) : Option (List Char) :=
  tailTry r8 (r8.takeWhile goIsRegexSpace).length

/-- Attempt the clock pattern anchored at the start of `l`, producing the
three submatches. -/
def clockTry (l : List Char) : Option (List Char × List Char × List Char) :=
  if (gs "CLOCK:").isPrefixOf l then
    match (l.drop 6).dropWhile goIsRegexSpace with
    | '[' :: r2 =>
      let g1 := r2.takeWhile (fun c => ¬ c = ']')
      let r3 := r2.drop g1.length
      if g1.isEmpty then none
      else if (gs "]--[").isPrefixOf r3 then
        let r4 := r3.drop 4
        let g2 := r4.takeWhile (fun c => ¬ c = ']')
        let r5 := r4.drop g2.length
        if g2.isEmpty then none
        else
          match r5 with
          | ']' :: r6 =>
            let r7 := r6.dropWhile goIsRegexSpace
            if (gs "=>").isPrefixOf r7 then
              match tailMatch (r7.drop 2) with
              | some g3 => some (g1, g2, g3)
              | none => none
            else none
          | _ => none
      else none
    | _ => none
  else none

/-- Leftmost match of the clock pattern (`FindStringSubmatch`). -/
def clockMatch : List Char → Option (List Char × List Char × List Char)
  | [] => none
  | c :: rest =>
    match clockTry (c :: rest) with
    | some g => some g
    | none => clockMatch rest

/-- The Go `time` short weekday names; parsing checks the syntax of the
day-of-week and otherwise ignores it. -/
def parseWeekday (s : List Char) : Option (List Char) :=
  if (gs "Sun").isPrefixOf s ∨ (gs "Mon").isPrefixOf s ∨
      (gs "Tue").isPrefixOf s ∨ (gs "Wed").isPrefixOf s ∨
      (gs "Thu").isPrefixOf s ∨ (gs "Fri").isPrefixOf s ∨
      (gs "Sat").isPrefixOf s then
    some (s.drop 3)
  else none

/-- Go `time.Parse("2006-01-02 Mon 15:04:05", s)` with its range checks
(month 1-12, day vs month, hour < 24, minute and second < 60); the parsed
weekday is syntax-checked and discarded. -/
def goParseTimestamp (s : List Char) : Option DateTime :=
  match s with
  | y1 :: y2 :: y3 :: y4 :: rest =>
    match goAtoi [y1, y2, y3, y4] with
    | none => none
    | some y =>
      match rest with
      | '-' :: r1 =>
        match parse2Digits r1 with
        | none => none
        | some (mo, r2) =>
          match r2 with
          | '-' :: r3 =>
            match parse2Digits r3 with
            | none => none
            | some (d, r4) =>
              match r4 with
              | ' ' :: r5 =>
                match parseWeekday r5 with
                | none => none
                | some r6 =>
                  match r6 with
                  | ' ' :: r7 =>
                    match parse2Digits r7 with
                    | none => none
                    | some (h, r8) =>
                      match r8 with
                      | ':' :: r9 =>
                        match parse2Digits r9 with
                        | none => none
                        | some (mi, r10) =>
                          match r10 with
                          | ':' :: r11 =>
                            match parse2Digits r11 with
                            | none => none
                            | some (sec, r12) =>
                              if r12 = [] ∧ 1 ≤ mo ∧ mo ≤ 12 ∧ 1 ≤ d ∧
                                  d ≤ daysIn mo y ∧ h ≤ 23 ∧ mi ≤ 59 ∧
                                  sec ≤ 59 then
                                some ⟨y, mo, d, h, mi, sec⟩
                              else none
                          | _ => none
                      | _ => none
                  | _ => none
              | _ => none
          | _ => none
      | _ => none
  | _ => none

/-- Wrap to a signed 64-bit value, as Go `int`/`time.Duration` arithmetic
does on overflow. -/
def wrap64 (x : Int) : Int := (x + 2 ^ 63) % 2 ^ 64 - 2 ^ 63

/-- Digit-folding loop of `parseSimpleInt`: any non-digit rune makes the
whole parse return 0 — with a `nil` error. -/
def psiLoop : Int → List Char → Int
  | r, [] => r
  | r, c :: cs =>
    if isDigitCh c then psiLoop (wrap64 (r * 10 + (c.toNat - '0'.toNat))) cs
    else 0

/-- `parseSimpleInt`: returns `(0, nil)` for the empty string and for any
string with a non-digit rune — it can never return an error. -/
def parseSimpleIntE (s : List Char) : Except Unit Int :=
  let t := goTrimSpace s
  if t.isEmpty then Except.ok 0 else Except.ok (psiLoop 0 t)

/-- `parseIntString`: trim and delegate; errors would propagate, but
`parseSimpleIntE` never produces one. -/
def parseIntString (s : List Char) : Except Unit Int :=
  parseSimpleIntE (goTrimSpace s)

/-- `parseLogseqDuration` in nanoseconds: splitting on `:` must give
exactly three fields (otherwise `(0, nil)`), each field parsed by
`parseIntString`; the multiplications and sums wrap as `int64`. -/
def parseLogseqDurationE (s : List Char) : Except Unit Int :=
  let t := goTrimSpace s
  match t.splitOn ':' with
  | [p1, p2, p3] =>
    match parseIntString p1 with
    | Except.error e => Except.error e
    | Except.ok hours =>
      match parseIntString p2 with
      | Except.error e => Except.error e
      | Except.ok minutes =>
        match parseIntString p3 with
        | Except.error e => Except.error e
        | Except.ok seconds =>
          Except.ok (wrap64 (wrap64 (wrap64 (hours * 3600000000000) +
            wrap64 (minutes * 60000000000)) + wrap64 (seconds * 1000000000)))
  | _ => Except.ok 0

/-- Go `end.Sub(start)` in nanoseconds, saturating at the `Duration`
bounds. -/
def goSub (a b : DateTime) : Int :=
  let d := (toAbsSec a - toAbsSec b) * 1000000000
  if d < -(2 ^ 63) then -(2 ^ 63)
  else if 2 ^ 63 - 1 < d then 2 ^ 63 - 1
  else d

/-- `parseClockLine`: match the clock pattern, parse both timestamps
(failure drops the line), parse the duration, falling back to
`end − start` if — unreachably — the duration parser errors. -/
def parseClockLine (line : List Char) : Option LogbookEntry :=
  match clockMatch line with
  | none => none
  | some (startStr, endStr, durationStr) =>
    match goParseTimestamp startStr with
    | none => none
    | some start =>
      match goParseTimestamp endStr with
      | none => none
      | some stop =>
        let duration :=
          match parseLogseqDurationE durationStr with
          | Except.ok d => d
          | Except.error _ => goSub stop start
        some ⟨start, stop, duration⟩

/-- Inner loop of `ParseLogbook`: consume lines until one containing
`:END:` (counted), collecting the clock entries that parse. -/
def logbookLoop : List (List Char) → List LogbookEntry × Nat
  | [] => ([], 0)
  | l :: rest =>
    let line := goTrimSpace l
    if goContains line (gs ":END:") then ([], 1)
    else
      let p := logbookLoop rest
      (match parseClockLine line with
       | some entry => entry :: p.1
       | none => p.1, p.2 + 1)

/-- `ParseLogbook` on the slice of lines starting at the candidate
`:LOGBOOK:` line; returns the entries and the number of lines consumed. -/
def ParseLogbook (lines : List (List Char)) : List LogbookEntry × Nat :=
  match lines with
  | [] => ([], 0)
  | first :: rest =>
    if goContains first (gs ":LOGBOOK:") then
      let p := logbookLoop rest
      (p.1, p.2 + 1)
    else ([], 0)

/-! ## Task parsing (claims C2 and C8) -/
/-- The five status markers in their fixed probe order. -/
def taskStatuses : List TaskStatus :=
  [TaskStatus.NOW, TaskStatus.LATER, TaskStatus.TODO, TaskStatus.DOING,
   TaskStatus.DONE]

/-- `isTaskLine`: the trimmed line starts with a bullet marker. -/
def isTaskLine (line : List Char) : Bool :=
  let trimmed := goTrimSpace line
  (gs "- ").isPrefixOf trimmed ∨ (gs "* ").isPrefixOf trimmed ∨
    (gs "+ ").isPrefixOf trimmed

/-- `extractTaskStatus`: the first status (in probe order) whose
token-plus-space occurs anywhere in the line. -/
def extractTaskStatus (line : List Char) : Option TaskStatus :=
  taskStatuses.find? (fun status => goContains line (statusStr status ++ [' ']))

/-- `extractPriority`: leftmost match of `\[#([ABC])\]`. -/
def extractPriority : List Char → Priority
  | [] => Priority.none
  | c :: rest =>
    if (gs "[#A]").isPrefixOf (c :: rest) then Priority.A
    else if (gs "[#B]").isPrefixOf (c :: rest) then Priority.B
    else if (gs "[#C]").isPrefixOf (c :: rest) then Priority.C
    else extractPriority rest

/-- `extractTaskDescription`: everything after the first occurrence of the
status marker, with `"[#X] "` — the priority marker plus one space —
removed once when the priority is set, then trimmed. -/
def extractTaskDescription (line : List Char) (status : TaskStatus)
    (priority : Priority) : List Char :=
  let marker := statusStr status ++ [' ']
  match goIndex line marker with
  | none => goTrimSpace line
  | some idx =>
    let description := line.drop (idx + marker.length)
    let description :=
      if priority ≠ Priority.none then
        goReplaceOnce description
          ((gs "[#") ++ priorityStr priority ++ (gs "] ")) []
      else description
    goTrimSpace description

/-- Worker for `ExtractPageReferences`: repeated leftmost matching of
`\[\[([^\]]+)\]\]`, continuing after each match.  The fuel is an upper
bound on the remaining length, so the zero case is never reached. -/
def extractRefsAux : Nat → List Char → List (List Char)
  | 0, _ => []
  | _ + 1, [] => []
  | fuel + 1, c :: rest =>
    if (gs "[[").isPrefixOf (c :: rest) then
      let inner := rest.drop 1 |>.takeWhile (fun x => ¬ x = ']')
      let after := rest.drop 1 |>.drop inner.length
      if ¬ inner.isEmpty ∧ (gs "]]").isPrefixOf after then
        inner :: extractRefsAux fuel (after.drop 2)
      else extractRefsAux fuel rest
    else extractRefsAux fuel rest

/-- `ExtractPageReferences`: all `[[...]]` spans in order. -/
def ExtractPageReferences (line : List Char) : List (List Char) :=
  extractRefsAux line.length line

/-- The line loop of `ParseTasks`, with the 0-based index `i` and a fuel
bound on the number of remaining lines. -/
def parseTasksLoop (filePath : List Char) :
    Nat → List (List Char) → Nat → List Task
  | 0, _, _ => []
  | _ + 1, [], _ => []
  | fuel + 1, line :: rest, i =>
    if isTaskLine line then
      match extractTaskStatus line with
      | some status =>
        let priority := extractPriority line
        let description := extractTaskDescription line status priority
        let pageRefs := ExtractPageReferences line
        let p :=
          match rest with
          | next :: _ =>
            if goContains next (gs ":LOGBOOK:") then ParseLogbook rest
            else ([], 0)
          | [] => ([], 0)
        (⟨status, priority, description, pageRefs, filePath, i + 1, p.1⟩ :
            Task) ::
          parseTasksLoop filePath fuel (rest.drop p.2) (i + 1 + p.2)
      | none => parseTasksLoop filePath fuel rest (i + 1)
    else parseTasksLoop filePath fuel rest (i + 1)

/-- `ParseTasks`: split the content on newlines and run the line loop. -/
def ParseTasks (content : List Char) (filePath : List Char) : List Task :=
  let lines := content.splitOn '\n'
  parseTasksLoop filePath lines.length lines 0

/-- Modelled from the claim's words for C8: the description is everything
after the status token, with the matched priority marker — `[#X]`, the
token of §6, without a following space — removed once, then
whitespace-trimmed. -/
def claimDescription (line : List Char) (status : TaskStatus)
    (priority : Priority) : List Char :=
  match goIndex line (statusStr status ++ [' ']) with
  | none => goTrimSpace line
  | some idx =>
    let afterStatus := line.drop (idx + (statusStr status).length + 1)
    goTrimSpace
      (if priority = Priority.none then afterStatus
       else goReplaceOnce afterStatus
         ((gs "[#") ++ priorityStr priority ++ [']']) [])

/-- The amended description rule: the priority marker is removed together
with one following space, and only when that two-part string occurs. -/
def amendedDescription (line : List Char) (status : TaskStatus)
    (priority : Priority) : List Char :=
  match goIndex line (statusStr status ++ [' ']) with
  | none => goTrimSpace line
  | some idx =>
    let afterStatus := line.drop (idx + (statusStr status).length + 1)
    goTrimSpace
      (if priority = Priority.none then afterStatus
       else goReplaceOnce afterStatus
         ((gs "[#") ++ priorityStr priority ++ [']', ' ']) [])

/-! ## Task-line characterization (claim C2) -/
/-- Modelled from the claim's words for C2: a task candidate is a line
that, after trimming LEADING whitespace, begins with a bullet marker
(the code trims both ends; the two agree on every line that also carries
a status token, which the bridge lemmas below establish). -/
def specTaskCandidate (line : List Char) : Bool :=
  let t := line.dropWhile goIsSpace
  (gs "- ").isPrefixOf t ∨ (gs "* ").isPrefixOf t ∨ (gs "+ ").isPrefixOf t

/-- The line loop of `ParseTasks` as it behaves when no line opens a
logbook: a straight scan. -/
def simpleTasksLoop (filePath : List Char) :
    List (List Char) → Nat → List Task
  | [], _ => []
  | line :: rest, i =>
    if isTaskLine line then
      match extractTaskStatus line with
      | some status =>
        (⟨status, extractPriority line,
          extractTaskDescription line status (extractPriority line),
          ExtractPageReferences line, filePath, i + 1, []⟩ : Task) ::
          simpleTasksLoop filePath rest (i + 1)
      | none => simpleTasksLoop filePath rest (i + 1)
    else simpleTasksLoop filePath rest (i + 1)

/-- Sanity anchor: the epoch day is day 0, and 2025-11-09 is 20401 days
after the epoch. -/
theorem daysFromCivil_epoch :
    daysFromCivil 1970 1 1 = 0 ∧ daysFromCivil 2025 11 9 = 20401 := by
  constructor <;> decide

/-- Sanity: 2025-11-09 was a Sunday and 2025-11-03 a Monday. -/
theorem goWeekday_anchor :
    goWeekday ⟨daysFromCivil 2025 11 9, 0, []⟩ = 0 ∧
    goWeekday ⟨daysFromCivil 2025 11 3, 0, []⟩ = 1 := by
  constructor <;> decide

/-- C6: `getWeekStart` returns the Monday at or before the timestamp's
calendar date (Sunday maps back 6 days, any other weekday back
`weekday − 1` days with Monday = 1 … Saturday = 6, Sunday = 0), normalized
to midnight in the original zone; Sunday 2025-11-09 and Wednesday 2025-11-05
both bucket to 2025-11-03, and Monday 2025-11-10 buckets to 2025-11-10. -/
theorem c6_week_bucketing :
    (∀ t : TZTime,
      (getWeekStart t).loc = t.loc ∧
      (getWeekStart t).tod = 0 ∧
      goWeekday (getWeekStart t) = 1 ∧
      (getWeekStart t).days =
        t.days - (if goWeekday t = 0 then 6 else goWeekday t - 1) ∧
      (getWeekStart t).days ≤ t.days ∧
      t.days - (getWeekStart t).days < 7) ∧
    (∀ tod loc, getWeekStart ⟨daysFromCivil 2025 11 9, tod, loc⟩ =
      ⟨daysFromCivil 2025 11 3, 0, loc⟩) ∧
    (∀ tod loc, getWeekStart ⟨daysFromCivil 2025 11 5, tod, loc⟩ =
      ⟨daysFromCivil 2025 11 3, 0, loc⟩) ∧
    (∀ tod loc, getWeekStart ⟨daysFromCivil 2025 11 10, tod, loc⟩ =
      ⟨daysFromCivil 2025 11 10, 0, loc⟩) ∧
    goWeekday ⟨daysFromCivil 2025 11 9, 0, []⟩ = 0 ∧
    goWeekday ⟨daysFromCivil 2025 11 5, 0, []⟩ = 3 ∧
    goWeekday ⟨daysFromCivil 2025 11 10, 0, []⟩ = 1 := by
  refine ⟨?_, ?_, ?_, ?_, by decide, by decide, by decide⟩
  · intro t
    refine ⟨rfl, rfl, ?_, ?_, ?_, ?_⟩ <;>
      simp only [getWeekStart, goWeekday] <;> split <;> omega
  all_goals intro tod loc; ext
  all_goals first | rfl | decide

/-- C9 counterexample: `"John Smith - A - B"` satisfies the claim's rule (a)
(it contains `" - "` and the part before the first occurrence is a
2-word capitalized name), so the claim classifies it `person`; the code
requires splitting on `" - "` to yield exactly two parts and classifies it
`concept`. -/
theorem c9_counterexample :
    claimRuleAPerson (gs "John Smith - A - B") = true ∧
    classifyPageType (gs "John Smith - A - B") = gs "concept" ∧
    (goSplitStr (gs "John Smith - A - B") (gs " - ")).length = 3 ∧
    gs "concept" ≠ gs "person" := by
  refine ⟨by decide, by decide, by decide, by decide⟩

/-- C9 (amended): the classifier applies its rules first-match-wins in the
claimed order, where rule (a) — name-shaped part before `" - "` gives
`person` — additionally requires the name to contain exactly one
occurrence of `" - "` (splitting on it yields exactly two parts). -/
theorem c9_classifier_rule_order (n : List Char) :
    classifyPageType n = firstMatchClassify n := by
  unfold classifyPageType firstMatchClassify classifyRules
  by_cases h1 : goContains n (gs " - ") = true
  · by_cases h2 : (goSplitStr n (gs " - ")).length = 2
    · by_cases h3 : looksLikeName (goSplitStr n (gs " - ")).headI = true
      · simp [List.find?, h1, h2, h3]
      · simp [List.find?, h1, h2, h3]
    · simp [List.find?, h1, h2]
  · by_cases h4 : dateKeywords.any (fun k => goContains n k) = true
    · simp [List.find?, h1, h4]
    · by_cases h5 : projectKeywords.any (fun k => goContains n k) = true
      · simp [List.find?, h1, h4, h5]
      · by_cases h6 : techKeywords.any (fun k => goContains n k) = true
        · simp [List.find?, h1, h4, h5, h6]
        · by_cases h7 : 2 ≤ (goFields n).length ∧ (goFields n).length ≤ 3
          · by_cases h8 : looksLikeName n = true
            · simp [List.find?, h1, h4, h5, h6, h7.1, h7.2, h8]
            · simp [List.find?, h1, h4, h5, h6, h7, h8]
          · rcases Decidable.not_and_iff_or_not.mp h7 with h7a | h7b
            · simp [List.find?, h1, h4, h5, h6, h7a]
            · simp [List.find?, h1, h4, h5, h6, h7b]

theorem insertSorted_perm (le : α → α → Bool) (x : α) (l : List α) :
    (insertSorted le x l).Perm (x :: l) := by
  induction l with
  | nil => simp [insertSorted]
  | cons y ys ih =>
    simp only [insertSorted]
    split
    · exact List.Perm.refl _
    · exact (ih.cons y).trans (List.Perm.swap x y ys)

theorem insertionSortBy_perm (le : α → α → Bool) (l : List α) :
    (insertionSortBy le l).Perm l := by
  induction l with
  | nil => simp [insertionSortBy]
  | cons x xs ih =>
    exact (insertSorted_perm le x (insertionSortBy le xs)).trans (ih.cons x)

theorem mem_insertSorted (le : α → α → Bool) (x : α) (l : List α) (a : α) :
    a ∈ insertSorted le x l ↔ a = x ∨ a ∈ l := by
  have h := (insertSorted_perm le x l).mem_iff (a := a)
  simpa using h

theorem pairwise_insertSorted (le : α → α → Bool)
    (htot : ∀ a b, le a b = true ∨ le b a = true)
    (htrans : ∀ a b c, le a b = true → le b c = true → le a c = true)
    (x : α) (l : List α) (h : l.Pairwise (fun a b => le a b = true)) :
    (insertSorted le x l).Pairwise (fun a b => le a b = true) := by
  induction l with
  | nil => simp [insertSorted]
  | cons y ys ih =>
    rcases h with _ | ⟨hy, hys⟩
    by_cases hxy : le x y = true
    · simp only [insertSorted, if_pos hxy]
      refine List.Pairwise.cons ?_ (List.Pairwise.cons hy hys)
      intro b hb
      rcases List.mem_cons.mp hb with rfl | hb
      · exact hxy
      · exact htrans x y b hxy (hy b hb)
    · simp only [insertSorted, if_neg hxy]
      refine List.Pairwise.cons ?_ (ih hys)
      intro b hb
      rcases (mem_insertSorted le x ys b).mp hb with hbx | hb
      · rw [hbx]
        rcases htot x y with h1 | h1
        · exact absurd h1 hxy
        · exact h1
      · exact hy b hb

theorem pairwise_insertionSortBy (le : α → α → Bool)
    (htot : ∀ a b, le a b = true ∨ le b a = true)
    (htrans : ∀ a b c, le a b = true → le b c = true → le a c = true)
    (l : List α) :
    (insertionSortBy le l).Pairwise (fun a b => le a b = true) := by
  induction l with
  | nil => simp [insertionSortBy]
  | cons x xs ih => exact pairwise_insertSorted le htot htrans x _ ih

theorem mapKeys_mapUpdate (m : NodeMap) (k : List Char)
    (f : GraphNode → GraphNode) : mapKeys (mapUpdate m k f) = mapKeys m := by
  induction m with
  | nil => rfl
  | cons e rest ih =>
    simp only [mapUpdate, mapKeys, List.map_cons] at ih ⊢
    split <;> simp [ih]

theorem mapLookup_isSome_iff (m : NodeMap) (k : List Char) :
    (mapLookup m k).isSome = true ↔ k ∈ mapKeys m := by
  induction m with
  | nil => simp [mapLookup, mapKeys, List.find?]
  | cons e rest ih =>
    by_cases hk : e.1 = k
    · simp [mapLookup, mapKeys, List.find?, hk]
    · simp only [mapLookup, mapKeys, List.find?, List.map_cons, List.mem_cons]
      rw [decide_eq_false hk]
      simp only [Bool.false_eq_true, if_false]
      constructor
      · intro h
        exact Or.inr ((ih).mp h)
      · intro h
        rcases h with h | h
        · exact absurd h.symm hk
        · exact (ih).mpr h

theorem mapLookup_eq_of_mem (m : NodeMap) (hnd : (mapKeys m).Nodup)
    (k : List Char) (v : GraphNode) (hm : (k, v) ∈ m) :
    mapLookup m k = some v := by
  induction m with
  | nil => simp at hm
  | cons e rest ih =>
    rcases List.mem_cons.mp hm with he | hrest
    · simp [mapLookup, List.find?, ← he]
    · by_cases hk : e.1 = k
      · exfalso
        have : k ∈ mapKeys rest := List.mem_map.mpr ⟨(k, v), hrest, rfl⟩
        have := (List.nodup_cons.mp hnd).1
        rw [hk] at this
        exact this ‹k ∈ mapKeys rest›
      · simp only [mapLookup, List.find?]
        rw [decide_eq_false hk]
        exact ih (List.nodup_cons.mp hnd).2 hrest

theorem mem_mapUpdate (m : NodeMap) (k : List Char) (f : GraphNode → GraphNode)
    (e : List Char × GraphNode) (h : e ∈ mapUpdate m k f) :
    (e ∈ m ∧ e.1 ≠ k) ∨ ∃ v, (k, v) ∈ m ∧ e = (k, f v) := by
  rcases List.mem_map.mp h with ⟨a, ha, hae⟩
  by_cases hk : a.1 = k
  · right
    refine ⟨a.2, ?_, ?_⟩
    · rw [← hk]
      exact ha
    · rw [← hae]
      simp [hk]
  · left
    rw [← hae]
    simp only [if_neg hk]
    exact ⟨ha, hk⟩

theorem containsStr_eq_false_iff (slice : List (List Char)) (v : List Char) :
    containsStr slice v = false ↔ v ∉ slice := by
  simp only [containsStr]
  rw [← Bool.not_eq_true, List.any_eq_true]
  constructor
  · intro h hv
    exact h ⟨v, hv, by simp⟩
  · intro h hc
    rcases hc with ⟨x, hx, hxv⟩
    rw [decide_eq_true_eq] at hxv
    rw [hxv] at hx
    exact h hx

theorem nodup_append_single (l : List (List Char)) (a : List Char)
    (hl : l.Nodup) (ha : a ∉ l) : (l ++ [a]).Nodup := by
  simp [List.nodup_append, hl, ha]

theorem graphInv_mapSet (m : NodeMap) (k : List Char) (v : GraphNode)
    (hm : graphInv m) (hv : nodeInv v) : graphInv (mapSet m k v) := by
  rcases hm with ⟨hnd, hinv⟩
  unfold mapSet
  split
  · constructor
    · have : mapKeys (m.map (fun e => if e.1 = k then (e.1, v) else e)) =
          mapKeys m := by
        simp only [mapKeys, List.map_map]
        refine List.map_congr_left ?_
        intro e _
        by_cases hk : e.1 = k <;> simp [hk]
      rw [this]
      exact hnd
    · intro e he
      rcases List.mem_map.mp he with ⟨a, ha, hae⟩
      by_cases hk : a.1 = k
      · rw [← hae]
        simp only [if_pos hk]
        exact hv
      · rw [← hae]
        simp only [if_neg hk]
        exact hinv a ha
  · constructor
    · simp only [mapKeys, List.map_append, List.map_cons, List.map_nil]
      refine nodup_append_single _ _ hnd ?_
      intro hk
      have := (mapLookup_isSome_iff m k).mpr hk
      simp only [mapLookup, Option.isSome_map] at this
      simp_all
    · intro e he
      rcases List.mem_append.mp he with he | he
      · exact hinv e he
      · simp only [List.mem_singleton] at he
        rw [he]
        exact hv

theorem graphInv_append_phantom (m : NodeMap) (k : List Char)
    (hm : graphInv m) (hk : ¬ (mapLookup m k).isSome = true) :
    graphInv (m ++ [(k, ⟨k, [], [], [], 0⟩)]) := by
  rcases hm with ⟨hnd, hinv⟩
  constructor
  · simp only [mapKeys, List.map_append, List.map_cons, List.map_nil]
    refine nodup_append_single _ _ hnd ?_
    intro hmem
    exact hk ((mapLookup_isSome_iff m k).mpr hmem)
  · intro e he
    rcases List.mem_append.mp he with he | he
    · exact hinv e he
    · simp only [List.mem_singleton] at he
      rw [he]
      exact ⟨rfl, List.nodup_nil, List.nodup_nil⟩

theorem graphInv_mapUpdate_outbound (m : NodeMap) (ref : PageReference)
    (node : GraphNode) (hm : graphInv m)
    (hlk : mapLookup m ref.sourcePage = some node)
    (hcont : ¬ containsStr node.outboundRefs ref.targetPage = true) :
    graphInv (mapUpdate m ref.sourcePage
      (fun n => { n with outboundRefs := n.outboundRefs ++ [ref.targetPage] })) := by
  rcases hm with ⟨hnd, hinv⟩
  refine ⟨by rw [mapKeys_mapUpdate]; exact hnd, ?_⟩
  intro e he
  rcases mem_mapUpdate _ _ _ _ he with ⟨hmem, _⟩ | ⟨v, hv, hev⟩
  · exact hinv e hmem
  · have hvnode : v = node := by
      have h2 := mapLookup_eq_of_mem m hnd ref.sourcePage v hv
      rw [hlk] at h2
      exact ((Option.some.injEq _ _).mp h2).symm
    rw [hev]
    rcases hinv (ref.sourcePage, v) hv with ⟨h1, h2, h3⟩
    refine ⟨h1, h2, ?_⟩
    refine nodup_append_single _ _ h3 ?_
    rw [hvnode]
    exact (containsStr_eq_false_iff _ _).mp (by simpa using hcont)

theorem graphInv_mapUpdate_inbound (m : NodeMap) (ref : PageReference)
    (node : GraphNode) (hm : graphInv m)
    (hlk : mapLookup m ref.targetPage = some node)
    (hcont : ¬ containsStr node.inboundRefs ref.sourcePage = true) :
    graphInv (mapUpdate m ref.targetPage
      (fun n =>
        { n with
          inboundRefs := n.inboundRefs ++ [ref.sourcePage]
          referenceCount := n.referenceCount + 1 })) := by
  rcases hm with ⟨hnd, hinv⟩
  refine ⟨by rw [mapKeys_mapUpdate]; exact hnd, ?_⟩
  intro e he
  rcases mem_mapUpdate _ _ _ _ he with ⟨hmem, _⟩ | ⟨v, hv, hev⟩
  · exact hinv e hmem
  · have hvnode : v = node := by
      have h2 := mapLookup_eq_of_mem m hnd ref.targetPage v hv
      rw [hlk] at h2
      exact ((Option.some.injEq _ _).mp h2).symm
    rw [hev]
    rcases hinv (ref.targetPage, v) hv with ⟨h1, h2, h3⟩
    simp only at h1 h2 h3
    refine ⟨?_, ?_, h3⟩
    · simp only [List.length_append, List.length_cons, List.length_nil]
      omega
    · refine nodup_append_single _ _ h2 ?_
      rw [hvnode]
      exact (containsStr_eq_false_iff _ _).mp (by simpa using hcont)

theorem graphInv_addRefOutbound (m : NodeMap) (ref : PageReference)
    (hm : graphInv m) : graphInv (addRefOutbound m ref) := by
  unfold addRefOutbound
  split
  next node heq =>
    split
    next => exact hm
    next hcont => exact graphInv_mapUpdate_outbound m ref node hm heq hcont
  next => exact hm

theorem graphInv_ensureTargetNode (m : NodeMap) (ref : PageReference)
    (hm : graphInv m) : graphInv (ensureTargetNode m ref) := by
  unfold ensureTargetNode
  split
  next => exact hm
  next h => exact graphInv_append_phantom m ref.targetPage hm h

theorem graphInv_addRefInbound (m : NodeMap) (ref : PageReference)
    (hm : graphInv m) : graphInv (addRefInbound m ref) := by
  unfold addRefInbound
  split
  next node heq =>
    split
    next => exact hm
    next hcont => exact graphInv_mapUpdate_inbound m ref node hm heq hcont
  next => exact hm

theorem graphInv_addRef (m : NodeMap) (ref : PageReference)
    (hm : graphInv m) : graphInv (addRef m ref) :=
  graphInv_addRefInbound _ ref
    (graphInv_ensureTargetNode _ ref (graphInv_addRefOutbound m ref hm))

theorem graphInv_foldl_addRef (refs : List PageReference) (m : NodeMap)
    (hm : graphInv m) : graphInv (refs.foldl addRef m) := by
  induction refs generalizing m with
  | nil => exact hm
  | cons r rest ih => exact ih _ (graphInv_addRef m r hm)

theorem graphInv_seedNodes (files : List GoFile) : graphInv (seedNodes files) := by
  have general : ∀ (fs : List GoFile) (m : NodeMap), graphInv m →
      graphInv (fs.foldl (fun m file =>
        let pageName := extractPageNameFromPath file.path
        mapSet m pageName ⟨pageName, file.path, [], [], 0⟩) m) := by
    intro fs
    induction fs with
    | nil => intro m hm; exact hm
    | cons f rest ih =>
      intro m hm
      exact ih _ (graphInv_mapSet m _ _ hm ⟨rfl, List.nodup_nil, List.nodup_nil⟩)
  exact general files [] ⟨List.nodup_nil, by intro e he; simp at he⟩

theorem graphInv_build (refs : List PageReference) (files : List GoFile) :
    graphInv (BuildReferenceGraph refs files).nodes :=
  graphInv_foldl_addRef refs (seedNodes files) (graphInv_seedNodes files)

/-- C4: after `BuildReferenceGraph`, every node's inbound count equals the
length of its inbound list, which has no duplicates, and its outbound list
has no duplicates — so repeated `(source, target)` link records never grow
either list beyond one entry for the pair nor bump the count twice. -/
theorem c4_graph_invariant (refs : List PageReference) (files : List GoFile)
    (k : List Char) (node : GraphNode)
    (h : (k, node) ∈ (BuildReferenceGraph refs files).nodes) :
    node.referenceCount = node.inboundRefs.length ∧
      node.inboundRefs.Nodup ∧ node.outboundRefs.Nodup :=
  (graphInv_build refs files).2 (k, node) h

theorem c4_graph_invariant_witness :
    ((gs "C", (⟨gs "C", [], [], [gs "A", gs "B"], 2⟩ : GraphNode)) ∈
        (BuildReferenceGraph demoRefs demoFiles).nodes) ∧
      ((⟨gs "C", [], [], [gs "A", gs "B"], 2⟩ : GraphNode).referenceCount =
          (⟨gs "C", [], [], [gs "A", gs "B"], 2⟩ : GraphNode).inboundRefs.length ∧
        (⟨gs "C", [], [], [gs "A", gs "B"], 2⟩ : GraphNode).inboundRefs.Nodup ∧
        (⟨gs "C", [], [], [gs "A", gs "B"], 2⟩ : GraphNode).outboundRefs.Nodup) :=
  ⟨by decide, c4_graph_invariant demoRefs demoFiles (gs "C") _ (by decide)⟩

theorem mem_hubCounts (nodes : NodeMap) (hnd : (mapKeys nodes).Nodup)
    (e : List Char × Nat)
    (he : e ∈ nodes.filterMap
      (fun a => if 0 < a.2.referenceCount then some (a.1, a.2.referenceCount)
                else none)) :
    hubCount nodes e.1 = e.2 ∧ 0 < e.2 := by
  rcases List.mem_filterMap.mp he with ⟨a, ha, hae⟩
  by_cases h : 0 < a.2.referenceCount
  · rw [if_pos h] at hae
    rcases (Option.some.injEq _ _).mp hae with rfl
    refine ⟨?_, h⟩
    show hubCount nodes a.1 = a.2.referenceCount
    unfold hubCount
    rw [mapLookup_eq_of_mem nodes hnd a.1 a.2 (by simpa using ha)]
  · rw [if_neg h] at hae
    exact absurd hae (by simp)

theorem findHubPages_spec (nodes : NodeMap) (topN : Nat)
    (hnd : (mapKeys nodes).Nodup) :
    (findHubPages nodes topN).length ≤ topN ∧
    (∀ name ∈ findHubPages nodes topN, 0 < hubCount nodes name) ∧
    (findHubPages nodes topN).Pairwise
      (fun a b => hubCount nodes b ≤ hubCount nodes a) := by
  have hperm := insertionSortBy_perm
    (fun a b : List Char × Nat => decide (b.2 ≤ a.2))
    (nodes.filterMap
      (fun a => if 0 < a.2.referenceCount then some (a.1, a.2.referenceCount)
                else none))
  have hchar : ∀ e ∈ insertionSortBy
      (fun a b : List Char × Nat => decide (b.2 ≤ a.2))
      (nodes.filterMap
        (fun a => if 0 < a.2.referenceCount then some (a.1, a.2.referenceCount)
                  else none)),
      hubCount nodes e.1 = e.2 ∧ 0 < e.2 := by
    intro e he
    exact mem_hubCounts nodes hnd e (hperm.mem_iff.mp he)
  refine ⟨?_, ?_, ?_⟩
  · simp [findHubPages]
  · intro name hname
    simp only [findHubPages, List.mem_map] at hname
    rcases hname with ⟨e, he, hename⟩
    have := hchar e (List.take_subset _ _ he)
    rw [← hename]
    rw [this.1]
    exact this.2
  · have hs := pairwise_insertionSortBy
      (fun a b : List Char × Nat => decide (b.2 ≤ a.2))
      (by
        intro a b
        rcases Nat.le_total b.2 a.2 with h | h
        · exact Or.inl (decide_eq_true h)
        · exact Or.inr (decide_eq_true h))
      (by
        intro a b c h1 h2
        rw [decide_eq_true_eq] at h1 h2 ⊢
        omega)
      (nodes.filterMap
        (fun a => if 0 < a.2.referenceCount then some (a.1, a.2.referenceCount)
                  else none))
    have ht := hs.sublist (List.take_sublist topN _)
    simp only [findHubPages]
    rw [List.pairwise_map]
    refine ht.imp_of_mem ?_
    intro a b ha hb hab
    have hca := hchar a (List.take_subset _ _ ha)
    have hcb := hchar b (List.take_subset _ _ hb)
    rw [hca.1, hcb.1]
    exact decide_eq_true_eq.mp hab

/-- C10: the hub ranking of a built reference graph has at most 10 entries,
every listed page has a strictly positive inbound-reference count (a page
with zero inbound references never appears), and the entries are ordered
by inbound-reference count descending. -/
theorem c10_hub_ranking (refs : List PageReference) (files : List GoFile) :
    (BuildReferenceGraph refs files).hubPages.length ≤ 10 ∧
    (∀ name ∈ (BuildReferenceGraph refs files).hubPages,
      0 < hubCount (BuildReferenceGraph refs files).nodes name) ∧
    (BuildReferenceGraph refs files).hubPages.Pairwise
      (fun a b => hubCount (BuildReferenceGraph refs files).nodes b ≤
        hubCount (BuildReferenceGraph refs files).nodes a) :=
  findHubPages_spec (BuildReferenceGraph refs files).nodes 10
    (graphInv_build refs files).1

theorem c10_hub_ranking_witness :
    (BuildReferenceGraph demoRefs demoFiles).hubPages.length ≤ 10 ∧
    0 < hubCount (BuildReferenceGraph demoRefs demoFiles).nodes (gs "C") ∧
    (BuildReferenceGraph demoRefs demoFiles).hubPages.Pairwise
      (fun a b => hubCount (BuildReferenceGraph demoRefs demoFiles).nodes b ≤
        hubCount (BuildReferenceGraph demoRefs demoFiles).nodes a) :=
  ⟨(c10_hub_ranking demoRefs demoFiles).1,
   (c10_hub_ranking demoRefs demoFiles).2.1 (gs "C") (by decide),
   (c10_hub_ranking demoRefs demoFiles).2.2⟩

theorem mkMissingPage_referencedFrom (pageName : List Char)
    (node : GraphNode) :
    mkMissingPage pageName node =
      ⟨pageName, node.referenceCount, classifyPageType pageName,
        (dedupFirst node.inboundRefs).take 10⟩ := by
  unfold mkMissingPage
  by_cases h : 10 < (dedupFirst node.inboundRefs).length
  · simp [h]
  · simp only [if_neg h]
    rw [List.take_of_length_le (by omega)]

theorem dedupAux_nodup (l : List (List Char)) :
    ∀ seen, (dedupAux seen l).Nodup ∧ ∀ x ∈ dedupAux seen l, x ∉ seen := by
  induction l with
  | nil => intro seen; simp [dedupAux]
  | cons x xs ih =>
    intro seen
    unfold dedupAux
    by_cases h : containsStr seen x = true
    · simp only [if_pos h]
      exact ih seen
    · simp only [if_neg h]
      have hx : x ∉ seen := by
        have hfalse : containsStr seen x = false := by
          revert h
          cases containsStr seen x <;> simp
        exact (containsStr_eq_false_iff seen x).mp hfalse
      rcases ih (x :: seen) with ⟨hnd, hnotin⟩
      refine ⟨List.nodup_cons.mpr ⟨?_, hnd⟩, ?_⟩
      · intro hmem
        exact (hnotin x hmem) (List.mem_cons_self x seen)
      · intro y hy
        rcases List.mem_cons.mp hy with hyx | hy
        · rw [hyx]; exact hx
        · intro hyseen
          exact (hnotin y hy) (List.mem_cons_of_mem x hyseen)

theorem dedupFirst_nodup (l : List (List Char)) : (dedupFirst l).Nodup :=
  (dedupAux_nodup l []).1

/-- C5: the missing-pages output is sorted by inbound count descending,
consists exactly of the phantom nodes (empty file path) with inbound count
at or above the threshold, each carrying the node's deduplicated inbound
list capped at its first 10 entries (so the list has no duplicates); at
threshold 5, a phantom with 4 inbound references is excluded and one with
5 is included. -/
theorem c5_missing_pages (graph : ReferenceGraph) (threshold : Int) :
    (BuildMissingPagesIndex graph threshold).missingPages.Pairwise
      (fun a b => b.referenceCount ≤ a.referenceCount) ∧
    (∀ mp ∈ (BuildMissingPagesIndex graph threshold).missingPages,
      ∃ name node, (name, node) ∈ graph.nodes ∧ node.filePath = [] ∧
        threshold ≤ (node.referenceCount : Int) ∧
        mp = ⟨name, node.referenceCount, classifyPageType name,
          (dedupFirst node.inboundRefs).take 10⟩) ∧
    (∀ name node, (name, node) ∈ graph.nodes → node.filePath = [] →
      threshold ≤ (node.referenceCount : Int) →
      (⟨name, node.referenceCount, classifyPageType name,
        (dedupFirst node.inboundRefs).take 10⟩ : MissingPage) ∈
        (BuildMissingPagesIndex graph threshold).missingPages) ∧
    (∀ mp ∈ (BuildMissingPagesIndex graph threshold).missingPages,
      mp.referencedFrom.Nodup) ∧
    (gs "Phantom5") ∈ (BuildMissingPagesIndex
      (BuildReferenceGraph boundaryRefs []) 5).missingPages.map
        (fun mp => mp.name) ∧
    (gs "Phantom4") ∉ (BuildMissingPagesIndex
      (BuildReferenceGraph boundaryRefs []) 5).missingPages.map
        (fun mp => mp.name) := by
  have hperm := insertionSortBy_perm
    (fun a b : MissingPage => decide (b.referenceCount ≤ a.referenceCount))
    (graph.nodes.filterMap (missingPageSelector threshold))
  have hmem_iff : ∀ mp,
      mp ∈ (BuildMissingPagesIndex graph threshold).missingPages ↔
      mp ∈ graph.nodes.filterMap (missingPageSelector threshold) := by
    intro mp
    exact hperm.mem_iff
  have hsel : ∀ e : List Char × GraphNode, ∀ mp,
      missingPageSelector threshold e = some mp →
      e.2.filePath = [] ∧ threshold ≤ (e.2.referenceCount : Int) ∧
        mp = ⟨e.1, e.2.referenceCount, classifyPageType e.1,
          (dedupFirst e.2.inboundRefs).take 10⟩ := by
    intro e mp h
    unfold missingPageSelector at h
    by_cases h1 : e.2.filePath ≠ []
    · rw [if_pos h1] at h
      exact absurd h (by simp)
    · rw [if_neg h1] at h
      by_cases h2 : (e.2.referenceCount : Int) < threshold
      · rw [if_pos h2] at h
        exact absurd h (by simp)
      · rw [if_neg h2] at h
        refine ⟨by simpa using h1, by omega, ?_⟩
        have := (Option.some.injEq _ _).mp h
        rw [← this, mkMissingPage_referencedFrom]
  refine ⟨?_, ?_, ?_, ?_, by decide, by decide⟩
  · refine List.Pairwise.imp (fun h => of_decide_eq_true h)
      (pairwise_insertionSortBy
        (fun a b : MissingPage => decide (b.referenceCount ≤ a.referenceCount))
        (by
          intro a b
          rcases Nat.le_total b.referenceCount a.referenceCount with h | h
          · exact Or.inl (decide_eq_true h)
          · exact Or.inr (decide_eq_true h))
        (by
          intro a b c h1 h2
          rw [decide_eq_true_eq] at h1 h2 ⊢
          omega)
        (graph.nodes.filterMap (missingPageSelector threshold)))
  · intro mp hmp
    rcases List.mem_filterMap.mp ((hmem_iff mp).mp hmp) with ⟨e, he, hsome⟩
    rcases hsel e mp hsome with ⟨h1, h2, h3⟩
    exact ⟨e.1, e.2, by simpa using he, h1, h2, h3⟩
  · intro name node hmem hpath hth
    refine (hmem_iff _).mpr (List.mem_filterMap.mpr ⟨(name, node), hmem, ?_⟩)
    unfold missingPageSelector
    rw [if_neg (by simpa using hpath), if_neg (Int.not_lt.mpr hth)]
    rw [mkMissingPage_referencedFrom]
  · intro mp hmp
    rcases List.mem_filterMap.mp ((hmem_iff mp).mp hmp) with ⟨e, he, hsome⟩
    rcases hsel e mp hsome with ⟨_, _, h3⟩
    rw [h3]
    exact List.Nodup.sublist (List.take_sublist _ _)
      (dedupFirst_nodup e.2.inboundRefs)

theorem c5_missing_pages_witness :
    (BuildMissingPagesIndex (BuildReferenceGraph boundaryRefs []) 5
        ).missingPages.Pairwise
      (fun a b => b.referenceCount ≤ a.referenceCount) ∧
    (⟨gs "Phantom5", 5, classifyPageType (gs "Phantom5"),
      (dedupFirst [gs "s1", gs "s2", gs "s3", gs "s4", gs "s5"]).take 10⟩ :
        MissingPage) ∈
      (BuildMissingPagesIndex (BuildReferenceGraph boundaryRefs []) 5
        ).missingPages :=
  ⟨(c5_missing_pages (BuildReferenceGraph boundaryRefs []) 5).1,
   (c5_missing_pages (BuildReferenceGraph boundaryRefs []) 5).2.2.1
     (gs "Phantom5") ⟨gs "Phantom5", [], [],
       [gs "s1", gs "s2", gs "s3", gs "s4", gs "s5"], 5⟩
     (by decide) (by decide) (by decide)⟩

theorem statusBreakdown_foldl (st : TaskStatus) (since : Int)
    (tasks : List Task) :
    ∀ idx : TaskIndex,
      (tasks.foldl (taskIndexStep since) idx).statistics.statusBreakdown st =
        idx.statistics.statusBreakdown st +
          tasks.countP (fun t => decide (t.status = st)) := by
  induction tasks with
  | nil => intro idx; simp
  | cons t ts ih =>
    intro idx
    simp only [List.foldl_cons, List.countP_cons]
    rw [ih]
    by_cases h : t.status = st
    · simp [taskIndexStep, h, decide_eq_true h]
      omega
    · have h2 : ¬ st = t.status := fun hc => h hc.symm
      simp [taskIndexStep, h2, decide_eq_false h]

/-- C3 counterexample: for one DONE task out of two, `CompletionRate` is
`50` (a percentage), not `1 / 2` as claimed (the number of DONE tasks
divided by the total); both values are exactly representable, so `float64`
rounding is not in play. -/
theorem c3_counterexample :
    (BuildTaskIndex [doneTask, nowTask] 0).statistics.completionRate = 50 ∧
    (50 : ℚ) ≠ 1 / 2 := by
  constructor
  · have h : (BuildTaskIndex [doneTask, nowTask] 0).statistics.completionRate =
        ((([doneTask, nowTask] : List Task).foldl (taskIndexStep 0)
            (initialTaskIndex 2)).statistics.statusBreakdown TaskStatus.DONE : ℚ) /
          ((2 : Nat) : ℚ) * 100 := rfl
    rw [h, statusBreakdown_foldl]
    norm_num [initialTaskIndex, doneTask, nowTask, List.countP_cons]
    rw [if_neg (by decide)]
    norm_num
  · norm_num

/-- C3 (amended): the completion rate equals the number of DONE tasks
divided by the total number of tasks, times 100 (a percentage), and equals
0 when the total is 0. -/
theorem c3_completion_rate (tasks : List Task) (thirtyDaysAgo : Int) :
    (BuildTaskIndex tasks thirtyDaysAgo).statistics.completionRate =
      if 0 < tasks.length then
        ((tasks.countP (fun t => decide (t.status = TaskStatus.DONE)) : ℚ) /
          (tasks.length : ℚ)) * 100
      else 0 := by
  show (if 0 < tasks.length then
      (((tasks.foldl (taskIndexStep thirtyDaysAgo)
          (initialTaskIndex tasks.length)).statistics.statusBreakdown
            TaskStatus.DONE : ℚ) / (tasks.length : ℚ)) * 100
    else (tasks.foldl (taskIndexStep thirtyDaysAgo)
      (initialTaskIndex tasks.length)).statistics.completionRate) = _
  rw [statusBreakdown_foldl]
  by_cases h : 0 < tasks.length
  · simp [h, initialTaskIndex]
  · simp only [if_neg h]
    have : tasks = [] := List.length_eq_zero.mp (by omega)
    rw [this]
    simp [initialTaskIndex]

section AListTheorems

variable {κ α : Type} [DecidableEq κ]

theorem alookup_cons_of_eq (e : κ × α) (rest : List (κ × α)) (k : κ)
    (h : e.1 = k) : alookup (e :: rest) k = some e.2 := by
  unfold alookup
  rw [List.find?_cons_of_pos _ (by simp [h])]
  rfl

theorem alookup_cons_of_ne (e : κ × α) (rest : List (κ × α)) (k : κ)
    (h : ¬ e.1 = k) : alookup (e :: rest) k = alookup rest k := by
  unfold alookup
  rw [List.find?_cons_of_neg _ (by simp [h])]

theorem aupdate_cons (e : κ × α) (rest : List (κ × α)) (k' : κ)
    (f : α → α) :
    aupdate (e :: rest) k' f =
      (if e.1 = k' then (e.1, f e.2) else e) :: aupdate rest k' f := rfl

theorem alookup_aupdate (m : List (κ × α)) (k k' : κ) (f : α → α) :
    alookup (aupdate m k' f) k =
      if k = k' then (alookup m k).map f else alookup m k := by
  induction m with
  | nil => simp [alookup, aupdate, List.find?]
  | cons e rest ih =>
    rw [aupdate_cons]
    by_cases hek' : e.1 = k'
    · rw [if_pos hek']
      by_cases hek : e.1 = k
      · have hkk : k = k' := by rw [← hek, hek']
        rw [alookup_cons_of_eq (e.1, f e.2) (aupdate rest k' f) k hek,
          alookup_cons_of_eq e rest k hek, if_pos hkk]
        rfl
      · have hkk : ¬ k = k' := fun h => hek (hek'.trans h.symm)
        rw [alookup_cons_of_ne (e.1, f e.2) (aupdate rest k' f) k hek,
          alookup_cons_of_ne e rest k hek, if_neg hkk, ih, if_neg hkk]
    · rw [if_neg hek']
      by_cases hek : e.1 = k
      · have hkk : ¬ k = k' := fun h => hek' (hek.trans h)
        rw [alookup_cons_of_eq e (aupdate rest k' f) k hek,
          alookup_cons_of_eq e rest k hek, if_neg hkk]
      · rw [alookup_cons_of_ne e (aupdate rest k' f) k hek,
          alookup_cons_of_ne e rest k hek, ih]

theorem akeys_aupdate (m : List (κ × α)) (k : κ) (f : α → α) :
    akeys (aupdate m k f) = akeys m := by
  induction m with
  | nil => rfl
  | cons e rest ih =>
    simp only [aupdate, akeys, List.map_cons] at ih ⊢
    split <;> simp [ih]

theorem alookup_isSome_iff (m : List (κ × α)) (k : κ) :
    (alookup m k).isSome = true ↔ k ∈ akeys m := by
  induction m with
  | nil => simp [alookup, akeys, List.find?]
  | cons e rest ih =>
    by_cases hk : e.1 = k
    · rw [alookup_cons_of_eq e rest k hk]
      simp [akeys, hk]
    · rw [alookup_cons_of_ne e rest k hk]
      simp only [akeys, List.map_cons, List.mem_cons]
      constructor
      · intro h
        exact Or.inr (ih.mp h)
      · intro h
        rcases h with h | h
        · exact absurd h.symm hk
        · exact ih.mpr h

theorem alookup_eq_of_mem (m : List (κ × α)) (hnd : (akeys m).Nodup)
    (k : κ) (v : α) (hm : (k, v) ∈ m) : alookup m k = some v := by
  induction m with
  | nil => simp at hm
  | cons e rest ih =>
    rcases List.mem_cons.mp hm with he | hrest
    · rw [alookup_cons_of_eq e rest k (by rw [← he])]
      rw [← he]
    · by_cases hk : e.1 = k
      · exfalso
        have h1 : k ∈ akeys rest := List.mem_map.mpr ⟨(k, v), hrest, rfl⟩
        have h2 := (List.nodup_cons.mp hnd).1
        rw [hk] at h2
        exact h2 h1
      · rw [alookup_cons_of_ne e rest k hk]
        exact ih (List.nodup_cons.mp hnd).2 hrest

theorem akeys_append_single (m : List (κ × α)) (e : κ × α) :
    akeys (m ++ [e]) = akeys m ++ [e.1] := by
  simp [akeys]

theorem alookup_mem (m : List (κ × α)) (k : κ) (v : α)
    (h : alookup m k = some v) : (k, v) ∈ m := by
  induction m with
  | nil => simp [alookup, List.find?] at h
  | cons e rest ih =>
    by_cases hk : e.1 = k
    · rw [alookup_cons_of_eq e rest k hk] at h
      rcases e with ⟨k0, v0⟩
      simp only at hk h
      have hv : v0 = v := (Option.some.injEq _ _).mp h
      rw [← hk, ← hv]
      exact List.mem_cons_self _ _
    · rw [alookup_cons_of_ne e rest k hk] at h
      exact List.mem_cons_of_mem e (ih h)

end AListTheorems

/-! ## Timeline lemmas -/
theorem sumDur_go (l : List Task) :
    ∀ a : Int, l.foldl (fun total t => total + t.totalDuration) a =
      a + sumDur l := by
  induction l with
  | nil => intro a; simp [sumDur]
  | cons t ts ih =>
    intro a
    simp only [List.foldl_cons]
    rw [ih]
    have h2 : sumDur (t :: ts) = t.totalDuration + sumDur ts := by
      show List.foldl _ 0 (t :: ts) = _
      simp only [List.foldl_cons]
      rw [ih]
      omega
    rw [h2]
    omega

theorem sumDur_cons (t : Task) (l : List Task) :
    sumDur (t :: l) = t.totalDuration + sumDur l := by
  show List.foldl _ 0 (t :: l) = _
  simp only [List.foldl_cons]
  rw [sumDur_go l (0 + t.totalDuration)]
  omega

theorem attachTasks_alookup (tasks : List Task) :
    ∀ (m : DayMap) (k : DateTime),
      alookup (attachTasks m tasks) k =
        (alookup m k).map (attachEvo tasks k) := by
  induction tasks with
  | nil =>
    intro m k
    show alookup m k = _
    rcases alookup m k with _ | day
    · rfl
    · show some day = some (attachEvo [] k day)
      unfold attachEvo
      simp [sumDur]
  | cons t ts ih =>
    intro m k
    show alookup (attachTasks (attachStep m t) ts) k = _
    rw [ih (attachStep m t) k]
    unfold attachStep
    split
    next d hpt =>
      by_cases hsome : (alookup m d).isSome = true
      · rw [if_pos hsome, alookup_aupdate]
        by_cases hkd : k = d
        · rw [if_pos hkd]
          rcases alookup m k with _ | day
          · rfl
          · show some (attachEvo ts k _) = some (attachEvo (t :: ts) k day)
            unfold attachEvo
            rw [← hkd] at hpt
            rw [List.filter_cons_of_pos (by simp [hpt])]
            congr 1
            apply TimelineDay.ext
            · rfl
            · rfl
            · simp
            · rw [sumDur_cons]
              dsimp only
              omega
            · rfl
        · rw [if_neg hkd]
          rcases alookup m k with _ | day
          · rfl
          · show some (attachEvo ts k day) = some (attachEvo (t :: ts) k day)
            unfold attachEvo
            rw [List.filter_cons_of_neg
              (by simp [hpt]; intro h; exact absurd h.symm hkd)]
      · rw [if_neg hsome]
        by_cases hkd : k = d
        · have : alookup m k = none := by
            rw [hkd]
            rcases h : alookup m d with _ | day
            · rfl
            · exact absurd (by rw [h]; rfl) hsome
          rw [this]
          rfl
        · rcases alookup m k with _ | day
          · rfl
          · show some (attachEvo ts k day) = some (attachEvo (t :: ts) k day)
            unfold attachEvo
            rw [List.filter_cons_of_neg
              (by simp [hpt]; intro h; exact absurd h.symm hkd)]
    next hpt =>
      rcases alookup m k with _ | day
      · rfl
      · show some (attachEvo ts k day) = some (attachEvo (t :: ts) k day)
        unfold attachEvo
        rw [List.filter_cons_of_neg (by simp [hpt])]

theorem akeys_attachTasks (tasks : List Task) :
    ∀ m : DayMap, akeys (attachTasks m tasks) = akeys m := by
  induction tasks with
  | nil => intro m; rfl
  | cons t ts ih =>
    intro m
    show akeys (attachTasks (attachStep m t) ts) = akeys m
    rw [ih (attachStep m t)]
    unfold attachStep
    split
    next d hpt =>
      by_cases hsome : (alookup m d).isSome = true
      · rw [if_pos hsome, akeys_aupdate]
      · rw [if_neg hsome]
    next hpt => rfl

theorem seed_go (files : List GoFile) :
    ∀ m : DayMap, (akeys m).Nodup → (∀ e ∈ m, seedEntryInv e) →
      (akeys (files.foldl seedStep m)).Nodup ∧
      (∀ e ∈ files.foldl seedStep m, seedEntryInv e) ∧
      (∀ d, d ∈ akeys (files.foldl seedStep m) ↔ d ∈ akeys m ∨
        ∃ f ∈ files, f.type = FileType.journal ∧
          extractDateFromJournalPath f.path = some d) := by
  induction files with
  | nil =>
    intro m hnd hinv
    refine ⟨hnd, hinv, ?_⟩
    intro d
    simp
  | cons f fs ih =>
    intro m hnd hinv
    simp only [List.foldl_cons]
    have hstep : (akeys (seedStep m f)).Nodup ∧
        (∀ e ∈ seedStep m f, seedEntryInv e) ∧
        (∀ d, d ∈ akeys (seedStep m f) ↔ d ∈ akeys m ∨
          (f.type = FileType.journal ∧
            extractDateFromJournalPath f.path = some d)) := by
      unfold seedStep
      by_cases hj : f.type = FileType.journal
      · rw [if_pos hj]
        split
        next d0 hp =>
          by_cases hsome : (alookup m d0).isSome = true
          · rw [if_pos hsome]
            refine ⟨hnd, hinv, ?_⟩
            intro d
            have hd0 : d0 ∈ akeys m := (alookup_isSome_iff m d0).mp hsome
            constructor
            · intro h
              exact Or.inl h
            · intro h
              rcases h with h | ⟨_, h2⟩
              · exact h
              · have : d = d0 := by
                  rw [hp] at h2
                  exact ((Option.some.injEq _ _).mp h2).symm
                rw [this]
                exact hd0
          · rw [if_neg hsome]
            have hd0 : d0 ∉ akeys m := by
              intro hmem
              exact hsome ((alookup_isSome_iff m d0).mpr hmem)
            refine ⟨?_, ?_, ?_⟩
            · rw [akeys_append_single]
              simp [List.nodup_append, hnd, hd0]
            · intro e he
              rcases List.mem_append.mp he with he | he
              · exact hinv e he
              · simp only [List.mem_singleton] at he
                rw [he]
                exact ⟨rfl, rfl, rfl⟩
            · intro d
              rw [akeys_append_single]
              simp only [List.mem_append, List.mem_singleton, hj, hp,
                true_and, Option.some.injEq]
              constructor
              · intro h
                rcases h with h | h
                · exact Or.inl h
                · exact Or.inr h.symm
              · intro h
                rcases h with h | h
                · exact Or.inl h
                · exact Or.inr h.symm
        next hp =>
          refine ⟨hnd, hinv, ?_⟩
          intro d
          simp [hj, hp]
      · rw [if_neg hj]
        refine ⟨hnd, hinv, ?_⟩
        intro d
        simp [hj]
    rcases hstep with ⟨h1, h2, h3⟩
    rcases ih (seedStep m f) h1 h2 with ⟨g1, g2, g3⟩
    refine ⟨g1, g2, ?_⟩
    intro d
    rw [g3 d]
    rw [h3 d]
    constructor
    · intro h
      rcases h with (h | h) | ⟨f2, hf2, hc⟩
      · exact Or.inl h
      · exact Or.inr ⟨f, List.mem_cons_self f fs, h⟩
      · exact Or.inr ⟨f2, List.mem_cons_of_mem f hf2, hc⟩
    · intro h
      rcases h with h | ⟨f2, hf2, hc⟩
      · exact Or.inl (Or.inl h)
      · rcases List.mem_cons.mp hf2 with hf | hf
        · rw [hf] at hc
          exact Or.inl (Or.inr hc)
        · exact Or.inr ⟨f2, hf, hc⟩

theorem seedDays_spec (files : List GoFile) :
    (akeys (seedDays files)).Nodup ∧
    (∀ e ∈ seedDays files, seedEntryInv e) ∧
    (∀ d, d ∈ akeys (seedDays files) ↔
      ∃ f ∈ files, f.type = FileType.journal ∧
        extractDateFromJournalPath f.path = some d) := by
  rcases seed_go files [] List.nodup_nil (by intro e he; simp at he)
    with ⟨h1, h2, h3⟩
  refine ⟨h1, h2, ?_⟩
  intro d
  unfold seedDays
  rw [h3 d]
  simp [akeys]

/-- Combined characterization of the day map after seeding and task
attachment: each stored day carries its key as date, exactly the tasks
whose source parses to that date (in task-list order), and their summed
logged time. -/
theorem attached_entry_spec (tasks : List Task) (files : List GoFile)
    (e : DateTime × TimelineDay)
    (he : e ∈ attachTasks (seedDays files) tasks) :
    e.2.date = e.1 ∧
    e.2.tasksCreated = tasks.filter
      (fun t => decide (extractDateFromJournalPath t.sourceFile = some e.1)) ∧
    e.2.timeLogged = sumDur (tasks.filter
      (fun t => decide (extractDateFromJournalPath t.sourceFile = some e.1))) := by
  rcases seedDays_spec files with ⟨hnd0, hinv0, _⟩
  have hknd : (akeys (attachTasks (seedDays files) tasks)).Nodup := by
    rw [akeys_attachTasks]
    exact hnd0
  have hlk : alookup (attachTasks (seedDays files) tasks) e.1 = some e.2 :=
    alookup_eq_of_mem _ hknd e.1 e.2 (by simpa using he)
  rw [attachTasks_alookup] at hlk
  rcases Option.map_eq_some'.mp hlk with ⟨day0, hday0, hevo⟩
  have hmem0 : (e.1, day0) ∈ seedDays files := alookup_mem _ _ _ hday0
  rcases hinv0 (e.1, day0) hmem0 with ⟨hd, ht, htl⟩
  simp only at hd ht htl
  rw [← hevo]
  unfold attachEvo
  refine ⟨hd, ?_, ?_⟩
  · rw [ht]
    simp
  · rw [htl]
    simp

theorem mem_timeline_entries (tasks : List Task) (files : List GoFile)
    (day : TimelineDay) :
    day ∈ (((attachTasks (seedDays files) tasks).map digestEntry).map
        (fun e => e.2)) ↔
      ∃ e ∈ attachTasks (seedDays files) tasks,
        day = { e.2 with keyActivity := generateKeyActivity e.2 } := by
  rw [List.map_map]
  constructor
  · intro h
    rcases List.mem_map.mp h with ⟨e, he, heq⟩
    exact ⟨e, he, heq.symm⟩
  · intro h
    rcases h with ⟨e, he, heq⟩
    exact List.mem_map.mpr ⟨e, he, heq.symm⟩

/-- C7 counterexample: two journal files whose base names parse to the
same date (`2025_11_06.md` and `2025-11-06.md`) seed a single
`TimelineDay`, not one per file as the claim has it. -/
theorem c7_counterexample :
    (BuildTimelineIndex []
      [⟨gs "journals/2025_11_06.md", FileType.journal⟩,
       ⟨gs "journals/2025-11-06.md", FileType.journal⟩]).entries.length = 1 ∧
    ([⟨gs "journals/2025_11_06.md", FileType.journal⟩,
      ⟨gs "journals/2025-11-06.md", FileType.journal⟩] : List GoFile).countP
        (fun f => decide (f.type = FileType.journal) &&
          (extractDateFromJournalPath f.path).isSome) = 2 ∧
    extractDateFromJournalPath (gs "journals/2025_11_06.md") =
      some ⟨2025, 11, 6, 0, 0, 0⟩ ∧
    extractDateFromJournalPath (gs "journals/2025-11-06.md") =
      some ⟨2025, 11, 6, 0, 0, 0⟩ ∧
    (1 : Nat) ≠ 2 := by
  refine ⟨by decide, by decide, by decide, by decide, by decide⟩

/-- C7 (amended): `BuildTimelineIndex` seeds exactly one `TimelineDay` per
distinct date parsed (as `YYYY_MM_DD` or `YYYY-MM-DD`, extension stripped)
from the journal-kind files, skipping files matching neither; a task is
attached to a day — and its total logged duration added to the day's
total — if and only if its source file path parses to a date for which a
seeded day exists; a day whose journal note exists but has zero tasks
still appears; and the entries are sorted newest first. -/
theorem c7_timeline (tasks : List Task) (files : List GoFile) :
    ((BuildTimelineIndex tasks files).entries.map
      (fun e => e.date)).Nodup ∧
    (∀ d : DateTime,
      (∃ f ∈ files, f.type = FileType.journal ∧
        extractDateFromJournalPath f.path = some d) ↔
      ∃ e ∈ (BuildTimelineIndex tasks files).entries, e.date = d) ∧
    (∀ e ∈ (BuildTimelineIndex tasks files).entries,
      e.tasksCreated = tasks.filter
        (fun t => decide (extractDateFromJournalPath t.sourceFile =
          some e.date)) ∧
      e.timeLogged = sumDur (tasks.filter
        (fun t => decide (extractDateFromJournalPath t.sourceFile =
          some e.date)))) ∧
    (BuildTimelineIndex tasks files).entries.Pairwise
      (fun a b => toAbsSec b.date ≤ toAbsSec a.date) := by
  rcases seedDays_spec files with ⟨hnd0, _, hiff0⟩
  have hperm : (BuildTimelineIndex tasks files).entries.Perm
      (((attachTasks (seedDays files) tasks).map digestEntry).map
        (fun e => e.2)) :=
    insertionSortBy_perm _ _
  have hchar : ∀ day ∈ (((attachTasks (seedDays files) tasks).map
      digestEntry).map (fun e => e.2)),
      day.date ∈ akeys (seedDays files) ∧
      day.tasksCreated = tasks.filter
        (fun t => decide (extractDateFromJournalPath t.sourceFile =
          some day.date)) ∧
      day.timeLogged = sumDur (tasks.filter
        (fun t => decide (extractDateFromJournalPath t.sourceFile =
          some day.date))) := by
    intro day hday
    rcases (mem_timeline_entries tasks files day).mp hday with ⟨e, he, heq⟩
    rcases attached_entry_spec tasks files e he with ⟨hd, ht, htl⟩
    have hdate : day.date = e.1 := by rw [heq]; exact hd
    have h1 : day.tasksCreated = e.2.tasksCreated := by rw [heq]
    have h2 : day.timeLogged = e.2.timeLogged := by rw [heq]
    have hkey : e.1 ∈ akeys (attachTasks (seedDays files) tasks) :=
      List.mem_map.mpr ⟨e, he, rfl⟩
    rw [akeys_attachTasks] at hkey
    refine ⟨by rw [hdate]; exact hkey, ?_, ?_⟩
    · rw [h1, hdate]
      exact ht
    · rw [h2, hdate]
      exact htl
  refine ⟨?_, ?_, ?_, ?_⟩
  · have hmapperm := hperm.map (fun e => e.date)
    refine hmapperm.nodup_iff.mpr ?_
    have heqmap : (((attachTasks (seedDays files) tasks).map
        digestEntry).map (fun e => e.2)).map (fun e => e.date) =
        akeys (attachTasks (seedDays files) tasks) := by
      rw [List.map_map, List.map_map]
      refine List.map_congr_left ?_
      intro e he
      rcases attached_entry_spec tasks files e he with ⟨hd, _, _⟩
      show (digestEntry e).2.date = e.1
      show e.2.date = e.1
      exact hd
    rw [heqmap, akeys_attachTasks]
    exact hnd0
  · intro d
    rw [← hiff0 d]
    constructor
    · intro hd
      have hsome : (alookup (seedDays files) d).isSome = true :=
        (alookup_isSome_iff _ d).mpr hd
      rcases hlk0 : alookup (seedDays files) d with _ | day0
      · rw [hlk0] at hsome; simp at hsome
      · have hlk1 : alookup (attachTasks (seedDays files) tasks) d =
            some (attachEvo tasks d day0) := by
          rw [attachTasks_alookup, hlk0]
          rfl
        have hmem1 : (d, attachEvo tasks d day0) ∈
            attachTasks (seedDays files) tasks := alookup_mem _ _ _ hlk1
        have hdate : (attachEvo tasks d day0).date = d :=
          (attached_entry_spec tasks files (d, attachEvo tasks d day0)
            hmem1).1
        refine ⟨{ attachEvo tasks d day0 with
          keyActivity := generateKeyActivity (attachEvo tasks d day0) },
          hperm.mem_iff.mpr ?_, hdate⟩
        exact (mem_timeline_entries tasks files _).mpr
          ⟨(d, attachEvo tasks d day0), hmem1, rfl⟩
    · intro hd
      rcases hd with ⟨e2, he2, hdate⟩
      have := (hchar e2 (hperm.mem_iff.mp he2)).1
      rw [hdate] at this
      exact this
  · intro e2 he2
    exact (hchar e2 (hperm.mem_iff.mp he2)).2
  · have hs := pairwise_insertionSortBy
      (fun a b : TimelineDay => decide (toAbsSec b.date ≤ toAbsSec a.date))
      (by
        intro a b
        rcases Int.le_total (toAbsSec b.date) (toAbsSec a.date) with h | h
        · exact Or.inl (decide_eq_true h)
        · exact Or.inr (decide_eq_true h))
      (by
        intro a b c h1 h2
        rw [decide_eq_true_eq] at h1 h2 ⊢
        omega)
      (((attachTasks (seedDays files) tasks).map digestEntry).map
        (fun e => e.2))
    exact hs.imp (fun h => of_decide_eq_true h)

theorem c7_timeline_witness :
    (∃ e ∈ (BuildTimelineIndex [] witnessFiles).entries,
      e.date = ⟨2025, 11, 5, 0, 0, 0⟩) ∧
    ((BuildTimelineIndex [] witnessFiles).entries.map
      (fun e => e.date)).Nodup :=
  ⟨((c7_timeline [] witnessFiles).2.1 ⟨2025, 11, 5, 0, 0, 0⟩).mp (by decide),
   (c7_timeline [] witnessFiles).1⟩

/-- Sanity: the round-trip clock line of the spec parses to a 2-hour
entry, and the long-duration text gives 260h46m44s. -/
theorem parseClockLine_round_trip :
    parseClockLine (gs
      "CLOCK: [2025-04-06 Sun 10:00:00]--[2025-04-06 Sun 12:00:00] =>  02:00:00") =
      some ⟨⟨2025, 4, 6, 10, 0, 0⟩, ⟨2025, 4, 6, 12, 0, 0⟩, 7200000000000⟩ ∧
    parseLogseqDurationE (gs "260:46:44") =
      Except.ok ((260 * 3600 + 46 * 60 + 44) * 1000000000) := by
  refine ⟨by decide, by rfl⟩

theorem parseIntString_isOk (s : List Char) :
    ∃ n, parseIntString s = Except.ok n := by
  simp only [parseIntString, parseSimpleIntE]
  split
  · exact ⟨0, rfl⟩
  · exact ⟨_, rfl⟩

theorem parseLogseqDurationE_isOk (s : List Char) :
    ∃ d, parseLogseqDurationE s = Except.ok d := by
  unfold parseLogseqDurationE
  dsimp only
  split
  next p1 p2 p3 heq =>
    rcases parseIntString_isOk p1 with ⟨n1, e1⟩
    rcases parseIntString_isOk p2 with ⟨n2, e2⟩
    rcases parseIntString_isOk p3 with ⟨n3, e3⟩
    simp only [e1, e2, e3]
    exact ⟨_, rfl⟩
  next => exact ⟨0, rfl⟩

/-- C1: the duration parser cannot fail — `parseSimpleInt` returns
`(0, nil)` on any malformed field and `parseLogseqDuration` returns
`(0, nil)` on a wrong field count — so the `end − start` fallback in
`parseClockLine` is unreachable.  On a clock line whose outer pattern
matches and whose timestamps parse but whose duration text is
unparseable, the entry's duration is 0, not `end − start` (2h here).  A
clock entry whose timestamp is unparseable is dropped while its sibling
entries are retained. -/
theorem c1_duration_fallback_unreachable :
    (∀ s, ∃ d, parseLogseqDurationE s = Except.ok d) ∧
    parseClockLine (gs
        "CLOCK: [2025-04-06 Sun 10:00:00]--[2025-04-06 Sun 12:00:00] => garbage") =
      some ⟨⟨2025, 4, 6, 10, 0, 0⟩, ⟨2025, 4, 6, 12, 0, 0⟩, 0⟩ ∧
    goSub ⟨2025, 4, 6, 12, 0, 0⟩ ⟨2025, 4, 6, 10, 0, 0⟩ = 7200000000000 ∧
    (0 : Int) ≠ 7200000000000 ∧
    ParseLogbook
      [gs "  :LOGBOOK:",
       gs "  CLOCK: [2025-04-06 XXX 10:00:00]--[2025-04-06 Sun 12:00:00] =>  02:00:00",
       gs "  CLOCK: [2025-04-07 Mon 14:00:00]--[2025-04-07 Mon 15:30:00] =>  01:30:00",
       gs "  :END:"] =
      ([⟨⟨2025, 4, 7, 14, 0, 0⟩, ⟨2025, 4, 7, 15, 30, 0⟩, 5400000000000⟩], 4) :=
  ⟨parseLogseqDurationE_isOk, by decide, by decide, by decide, by decide⟩

/-- C8 counterexample: on `"- NOW fix [#A]"` the priority marker is
matched (`[#A]`), but because it is not followed by a space the code
leaves it in the description (`"fix [#A]"`), while the claim's rule
strips it (`"fix"`). -/
theorem c8_counterexample :
    extractPriority (gs "- NOW fix [#A]") = Priority.A ∧
    claimDescription (gs "- NOW fix [#A]") TaskStatus.NOW Priority.A =
      gs "fix" ∧
    extractTaskDescription (gs "- NOW fix [#A]") TaskStatus.NOW Priority.A =
      gs "fix [#A]" ∧
    gs "fix [#A]" ≠ gs "fix" := by
  refine ⟨by decide, by decide, by decide, by decide⟩

theorem statusStr_append_length (st : TaskStatus) :
    (statusStr st ++ [' ']).length = (statusStr st).length + 1 := by
  simp

/-- C8 (amended): the description equals everything after the first
occurrence of the status token with the matched priority marker AND ONE
FOLLOWING SPACE removed once (a marker not followed by a space stays),
whitespace-trimmed; and applying the extraction to an already-trimmed
text containing no status token is a no-op. -/
theorem c8_description_amended :
    (∀ (line : List Char) (st : TaskStatus) (p : Priority),
      extractTaskDescription line st p = amendedDescription line st p) ∧
    (∀ (s : List Char) (st : TaskStatus) (p : Priority),
      goContains s (statusStr st ++ [' ']) = false → goTrimSpace s = s →
      extractTaskDescription s st p = s) := by
  constructor
  · intro line st p
    unfold extractTaskDescription amendedDescription
    dsimp only
    rcases hidx : goIndex line (statusStr st ++ [' ']) with _ | idx
    · rfl
    · rw [statusStr_append_length]
      by_cases hp : p = Priority.none
      · simp [hp, Nat.add_assoc]
      · simp only [hp, if_neg hp, ne_eq, not_false_iff, if_true,
          Bool.false_eq_true, if_false, Nat.add_assoc]
        rcases p with _ | _ | _ | _ <;> simp_all <;> rfl
  · intro s st p h1 h2
    have hidx : goIndex s (statusStr st ++ [' ']) = none := by
      rcases h : goIndex s (statusStr st ++ [' ']) with _ | v
      · rfl
      · exfalso
        unfold goContains at h1
        rw [h] at h1
        simp at h1
    unfold extractTaskDescription
    dsimp only
    rw [hidx]
    exact h2

theorem c8_description_amended_witness :
    goContains (gs "fix things") (statusStr TaskStatus.NOW ++ [' ']) =
      false ∧
    goTrimSpace (gs "fix things") = gs "fix things" ∧
    extractTaskDescription (gs "fix things") TaskStatus.NOW Priority.none =
      gs "fix things" :=
  ⟨by decide, by decide,
   c8_description_amended.2 (gs "fix things") TaskStatus.NOW Priority.none
     (by decide) (by decide)⟩

theorem goIndexAux_isSome_shift (pat : List Char) :
    ∀ (s : List Char) (i j : Nat),
      (goIndexAux pat s i).isSome = (goIndexAux pat s j).isSome := by
  intro s
  induction s with
  | nil =>
    intro i j
    unfold goIndexAux
    split <;> rfl
  | cons c rest ih =>
    intro i j
    unfold goIndexAux
    by_cases h : pat.isPrefixOf (c :: rest) = true
    · simp [h]
    · simp only [h, Bool.false_eq_true, if_false]
      exact ih (i + 1) (j + 1)

theorem goContains_iff_exists_drop (s pat : List Char) :
    goContains s pat = true ↔ ∃ i, pat.isPrefixOf (s.drop i) = true := by
  induction s with
  | nil =>
    simp only [goContains, goIndex, goIndexAux]
    constructor
    · intro h
      refine ⟨0, ?_⟩
      rcases pat with _ | ⟨c, cs⟩
      · simp [List.isPrefixOf]
      · simp at h
    · intro ⟨i, hi⟩
      simp only [List.drop_nil] at hi
      rcases pat with _ | ⟨c, cs⟩
      · simp
      · simp [List.isPrefixOf] at hi
  | cons c rest ih =>
    simp only [goContains, goIndex] at ih ⊢
    unfold goIndexAux
    by_cases h : pat.isPrefixOf (c :: rest) = true
    · simp only [h, if_true]
      constructor
      · intro _
        exact ⟨0, by simpa using h⟩
      · intro _
        simp
    · simp only [h, Bool.false_eq_true, if_false]
      rw [goIndexAux_isSome_shift pat rest 1 0]
      rw [ih]
      constructor
      · intro ⟨i, hi⟩
        exact ⟨i + 1, by simpa using hi⟩
      · intro ⟨i, hi⟩
        rcases i with _ | i
        · simp only [List.drop_zero] at hi
          exact absurd hi h
        · exact ⟨i, by simpa using hi⟩

theorem mem_of_goContains (s pat : List Char) (c : Char)
    (h : goContains s pat = true) (hc : c ∈ pat) : c ∈ s := by
  rcases (goContains_iff_exists_drop s pat).mp h with ⟨i, hi⟩
  have hpre : pat <+: s.drop i := by
    rwa [← List.isPrefixOf_iff_prefix]
  exact List.drop_subset i s (hpre.subset hc)

theorem goTrimRight_prefix (t : List Char) : goTrimRight t <+: t := by
  refine ⟨(t.reverse.takeWhile goIsSpace).reverse, ?_⟩
  unfold goTrimRight
  rw [← List.reverse_append, List.takeWhile_append_dropWhile,
    List.reverse_reverse]

theorem goTrimRight_keeps_head (b1 b2 : Char) (u : List Char)
    (h : ∃ c ∈ u, ¬ goIsSpace c = true) :
    goTrimRight (b1 :: b2 :: u) = b1 :: b2 :: goTrimRight u := by
  unfold goTrimRight
  have hrev : (b1 :: b2 :: u).reverse = u.reverse ++ [b2, b1] := by
    simp
  rw [hrev]
  have hne : ¬ (u.reverse.dropWhile goIsSpace).isEmpty = true := by
    rcases h with ⟨c, hc, hcs⟩
    intro hemp
    rw [List.isEmpty_iff] at hemp
    have : ∀ x ∈ u.reverse, goIsSpace x = true :=
      fun x hx => by
        by_contra hxx
        have := List.dropWhile_eq_nil_iff.mp hemp x hx
        exact hxx this
    exact hcs (this c (List.mem_reverse.mpr hc))
  rw [List.dropWhile_append]
  simp only [hne, Bool.false_eq_true, if_false]
  simp

theorem statusToken_char (st : TaskStatus) :
    ∃ c, c ∈ statusStr st ++ [' '] ∧ goIsSpace c = false ∧
      ¬ c = '-' ∧ ¬ c = '*' ∧ ¬ c = '+' ∧ ¬ c = ' ' := by
  cases st
  · exact ⟨'N', by decide⟩
  · exact ⟨'L', by decide⟩
  · exact ⟨'T', by decide⟩
  · exact ⟨'D', by decide⟩
  · exact ⟨'D', by decide⟩

theorem pair_isPrefixOf_cons (a b : Char) (l : List Char) :
    ([a, b]).isPrefixOf (a :: b :: l) = true := by
  simp [List.isPrefixOf]

theorem mem_tail_of_bullet (c b : Char) (u : List Char)
    (h : c ∈ b :: ' ' :: u) (h1 : ¬ c = b) (h2 : ¬ c = ' ') : c ∈ u := by
  rcases List.mem_cons.mp h with hh | h
  · exact absurd hh h1
  rcases List.mem_cons.mp h with hh | h
  · exact absurd hh h2
  · exact h

/-- On a line that carries a status token, the code's both-ends trim and
the claim's leading-only trim agree on bullet candidacy. -/
theorem candidate_bridge (l : List Char)
    (hst : (extractTaskStatus l).isSome = true) :
    isTaskLine l = true ↔ specTaskCandidate l = true := by
  rcases h : extractTaskStatus l with _ | st
  · rw [h] at hst; simp at hst
  have hcont : goContains l (statusStr st ++ [' ']) = true := by
    have := List.find?_some h
    simpa using this
  rcases statusToken_char st with ⟨c, hcpat, hcsp, hcd, hcs, hcp, hcsp2⟩
  have hcl : c ∈ l := mem_of_goContains l _ c hcont hcpat
  have hct : c ∈ l.dropWhile goIsSpace := by
    have hdecomp := List.takeWhile_append_dropWhile (p := goIsSpace) (l := l)
    rw [← hdecomp] at hcl
    rcases List.mem_append.mp hcl with hmem | hmem
    · exact absurd (List.mem_takeWhile_imp hmem) (by simp [hcsp])
    · exact hmem
  have htrim : goTrimSpace l = goTrimRight (l.dropWhile goIsSpace) := rfl
  constructor
  · intro hb
    simp only [isTaskLine, decide_eq_true_eq] at hb
    simp only [specTaskCandidate, decide_eq_true_eq]
    have hpre := goTrimRight_prefix (l.dropWhile goIsSpace)
    rcases hb with hb | hb | hb
    all_goals rw [htrim, List.isPrefixOf_iff_prefix] at hb
    · exact Or.inl (by rw [List.isPrefixOf_iff_prefix]; exact hb.trans hpre)
    · exact Or.inr (Or.inl
        (by rw [List.isPrefixOf_iff_prefix]; exact hb.trans hpre))
    · exact Or.inr (Or.inr
        (by rw [List.isPrefixOf_iff_prefix]; exact hb.trans hpre))
  · intro hb
    simp only [specTaskCandidate, decide_eq_true_eq] at hb
    simp only [isTaskLine, decide_eq_true_eq]
    rcases hb with hb | hb | hb
    · refine Or.inl ?_
      rw [List.isPrefixOf_iff_prefix] at hb
      rcases hb with ⟨u, hu⟩
      rw [htrim, ← hu]
      have hcu : c ∈ u := by
        rw [← hu] at hct
        exact mem_tail_of_bullet c '-' u hct hcd hcsp2
      rw [show ((gs "- ") ++ u) = '-' :: ' ' :: u from rfl]
      rw [goTrimRight_keeps_head '-' ' ' u ⟨c, hcu, by simp [hcsp]⟩]
      exact pair_isPrefixOf_cons '-' ' ' (goTrimRight u)
    · refine Or.inr (Or.inl ?_)
      rw [List.isPrefixOf_iff_prefix] at hb
      rcases hb with ⟨u, hu⟩
      rw [htrim, ← hu]
      have hcu : c ∈ u := by
        rw [← hu] at hct
        exact mem_tail_of_bullet c '*' u hct hcs hcsp2
      rw [show ((gs "* ") ++ u) = '*' :: ' ' :: u from rfl]
      rw [goTrimRight_keeps_head '*' ' ' u ⟨c, hcu, by simp [hcsp]⟩]
      exact pair_isPrefixOf_cons '*' ' ' (goTrimRight u)
    · refine Or.inr (Or.inr ?_)
      rw [List.isPrefixOf_iff_prefix] at hb
      rcases hb with ⟨u, hu⟩
      rw [htrim, ← hu]
      have hcu : c ∈ u := by
        rw [← hu] at hct
        exact mem_tail_of_bullet c '+' u hct hcp hcsp2
      rw [show ((gs "+ ") ++ u) = '+' :: ' ' :: u from rfl]
      rw [goTrimRight_keeps_head '+' ' ' u ⟨c, hcu, by simp [hcsp]⟩]
      exact pair_isPrefixOf_cons '+' ' ' (goTrimRight u)

theorem parseTasksLoop_no_logbook (fp : List Char) :
    ∀ (lines : List (List Char)) (fuel i : Nat), lines.length ≤ fuel →
      (∀ l ∈ lines, goContains l (gs ":LOGBOOK:") = false) →
      parseTasksLoop fp fuel lines i = simpleTasksLoop fp lines i := by
  intro lines
  induction lines with
  | nil =>
    intro fuel i _ _
    cases fuel <;> rfl
  | cons line rest ih =>
    intro fuel i hfuel h
    rcases fuel with _ | fuel
    · simp at hfuel
    have hp : (match rest with
        | next :: _ =>
          if goContains next (gs ":LOGBOOK:") then ParseLogbook rest
          else (([] : List LogbookEntry), 0)
        | [] => (([] : List LogbookEntry), 0)) =
        (([] : List LogbookEntry), 0) := by
      cases rest with
      | nil => rfl
      | cons next r2 =>
        have hnext := h next (List.mem_cons_of_mem line (List.mem_cons_self next r2))
        simp [hnext]
    show (if isTaskLine line then _ else _) = _
    unfold simpleTasksLoop
    by_cases hb : isTaskLine line = true
    · simp only [hb, if_true]
      rcases hs : extractTaskStatus line with _ | st
      · exact ih fuel (i + 1) (by simpa using hfuel)
          (fun l hl => h l (List.mem_cons_of_mem line hl))
      · simp only [hp]
        rw [List.drop_zero, Nat.add_zero]
        rw [ih fuel (i + 1) (by simpa using hfuel)
          (fun l hl => h l (List.mem_cons_of_mem line hl))]
    · simp only [hb, Bool.false_eq_true, if_false]
      exact ih fuel (i + 1) (by simpa using hfuel)
        (fun l hl => h l (List.mem_cons_of_mem line hl))

theorem simpleTasksLoop_lineNumber (fp : List Char) :
    ∀ (lines : List (List Char)) (i : Nat) (t : Task),
      t ∈ simpleTasksLoop fp lines i →
      i + 1 ≤ t.lineNumber ∧ t.lineNumber ≤ i + lines.length := by
  intro lines
  induction lines with
  | nil => intro i t ht; simp [simpleTasksLoop] at ht
  | cons line rest ih =>
    intro i t ht
    unfold simpleTasksLoop at ht
    by_cases hb : isTaskLine line = true
    · rw [if_pos hb] at ht
      rcases hs : extractTaskStatus line with _ | st
      · rw [hs] at ht
        have := ih (i + 1) t ht
        simp only [List.length_cons]
        omega
      · rw [hs] at ht
        rcases List.mem_cons.mp ht with hh | hh
        · rw [hh]
          simp only [List.length_cons]
          omega
        · have := ih (i + 1) t hh
          simp only [List.length_cons]
          omega
    · rw [if_neg hb] at ht
      have := ih (i + 1) t ht
      simp only [List.length_cons]
      omega

theorem simpleTasksLoop_countP (fp : List Char) :
    ∀ (lines : List (List Char)) (i0 j : Nat) (hj : j < lines.length),
      (simpleTasksLoop fp lines i0).countP
          (fun t => decide (t.lineNumber = i0 + j + 1)) =
        if isTaskLine (lines.get ⟨j, hj⟩) = true ∧
            (extractTaskStatus (lines.get ⟨j, hj⟩)).isSome = true
        then 1 else 0 := by
  intro lines
  induction lines with
  | nil => intro i0 j hj; simp at hj
  | cons line rest ih =>
    intro i0 j hj
    have hzero : ∀ n, n < i0 + 2 →
        (simpleTasksLoop fp rest (i0 + 1)).countP
          (fun t => decide (t.lineNumber = n)) = 0 := by
      intro n hn
      rw [List.countP_eq_zero]
      intro t ht
      have := simpleTasksLoop_lineNumber fp rest (i0 + 1) t ht
      simp only [decide_eq_true_eq]
      omega
    rcases j with _ | j
    · have hget0 : (line :: rest).get ⟨0, hj⟩ = line := rfl
      rw [hget0]
      unfold simpleTasksLoop
      by_cases hb : isTaskLine line = true
      · rw [if_pos hb]
        rcases hs : extractTaskStatus line with _ | st
        · rw [if_neg (by simp [hb, hs])]
          exact hzero (i0 + 0 + 1) (by omega)
        · rw [if_pos (by simp [hb, hs])]
          rw [List.countP_cons]
          rw [hzero (i0 + 0 + 1) (by omega)]
          simp
      · rw [if_neg hb, if_neg (by simp [hb])]
        exact hzero (i0 + 0 + 1) (by omega)
    · have hj2 : j < rest.length := by
        simp only [List.length_cons] at hj
        omega
      have hget : (line :: rest).get ⟨j + 1, hj⟩ = rest.get ⟨j, hj2⟩ := rfl
      rw [hget]
      have htail := ih (i0 + 1) j hj2
      have harith : i0 + 1 + j + 1 = i0 + (j + 1) + 1 := by omega
      rw [harith] at htail
      unfold simpleTasksLoop
      by_cases hb : isTaskLine line = true
      · rw [if_pos hb]
        rcases hs : extractTaskStatus line with _ | st
        · exact htail
        · rw [List.countP_cons]
          rw [htail]
          simp only [decide_eq_true_eq]
          have : ¬ (i0 + 1 = i0 + (j + 1) + 1) := by omega
          simp [this]
      · rw [if_neg hb]
        exact htail

theorem simpleTasksLoop_status (fp : List Char) :
    ∀ (lines : List (List Char)) (i0 : Nat) (t : Task),
      t ∈ simpleTasksLoop fp lines i0 →
      ∃ j, ∃ hj : j < lines.length, t.lineNumber = i0 + j + 1 ∧
        extractTaskStatus (lines.get ⟨j, hj⟩) = some t.status := by
  intro lines
  induction lines with
  | nil => intro i0 t ht; simp [simpleTasksLoop] at ht
  | cons line rest ih =>
    intro i0 t ht
    unfold simpleTasksLoop at ht
    by_cases hb : isTaskLine line = true
    · rw [if_pos hb] at ht
      rcases hs : extractTaskStatus line with _ | st
      · rw [hs] at ht
        rcases ih (i0 + 1) t ht with ⟨j, hj, h1, h2⟩
        exact ⟨j + 1, by simpa using Nat.succ_lt_succ hj,
          by omega, h2⟩
      · rw [hs] at ht
        rcases List.mem_cons.mp ht with hh | hh
        · refine ⟨0, by simp, by rw [hh], ?_⟩
          rw [hh]
          exact hs
        · rcases ih (i0 + 1) t hh with ⟨j, hj, h1, h2⟩
          exact ⟨j + 1, by simpa using Nat.succ_lt_succ hj,
            by omega, h2⟩
    · rw [if_neg hb] at ht
      rcases ih (i0 + 1) t ht with ⟨j, hj, h1, h2⟩
      exact ⟨j + 1, by simpa using Nat.succ_lt_succ hj, by omega, h2⟩

/-- C2 counterexample: a bullet-plus-status line inside a `:LOGBOOK:`
block is consumed by the logbook scan and produces no `TaskRecord`: the
input has two lines satisfying the claim's bullet-and-status condition
but yields one task. -/
theorem c2_counterexample :
    (ParseTasks (gs "- NOW a\n:LOGBOOK:\n- LATER b\n:END:")
      (gs "j.md")).length = 1 ∧
    ((gs "- NOW a\n:LOGBOOK:\n- LATER b\n:END:").splitOn '\n').countP
      (fun l => specTaskCandidate l && (extractTaskStatus l).isSome) = 2 ∧
    (1 : Nat) ≠ 2 := by
  refine ⟨by decide, by decide, by decide⟩

/-- C2 (amended): in a note none of whose lines contains `:LOGBOOK:`
(lines consumed as part of a task's logbook block are exempt from the
claim), a line produces exactly one `TaskRecord` iff, after trimming
leading whitespace, it begins with a bullet marker and contains one of
the five status tokens followed by a space; the assigned status of every
produced task is `extractTaskStatus` of its line, which picks the first
status in the fixed order NOW, LATER, TODO, DOING, DONE whose
token-plus-space occurs anywhere in the line. -/
theorem c2_task_lines (content filePath : List Char)
    (h : ∀ l ∈ content.splitOn '\n', goContains l (gs ":LOGBOOK:") = false) :
    (∀ i, ∀ hi : i < (content.splitOn '\n').length,
      (ParseTasks content filePath).countP
          (fun t => decide (t.lineNumber = i + 1)) =
        if specTaskCandidate ((content.splitOn '\n').get ⟨i, hi⟩) = true ∧
            (extractTaskStatus
              ((content.splitOn '\n').get ⟨i, hi⟩)).isSome = true
        then 1 else 0) ∧
    (∀ t ∈ ParseTasks content filePath,
      ∃ hi : t.lineNumber - 1 < (content.splitOn '\n').length,
        extractTaskStatus ((content.splitOn '\n').get
          ⟨t.lineNumber - 1, hi⟩) = some t.status) ∧
    (∀ l : List Char,
      (goContains l (statusStr TaskStatus.NOW ++ [' ']) = true →
        extractTaskStatus l = some TaskStatus.NOW) ∧
      (goContains l (statusStr TaskStatus.NOW ++ [' ']) = false →
        goContains l (statusStr TaskStatus.LATER ++ [' ']) = true →
        extractTaskStatus l = some TaskStatus.LATER) ∧
      (goContains l (statusStr TaskStatus.NOW ++ [' ']) = false →
        goContains l (statusStr TaskStatus.LATER ++ [' ']) = false →
        goContains l (statusStr TaskStatus.TODO ++ [' ']) = true →
        extractTaskStatus l = some TaskStatus.TODO) ∧
      (goContains l (statusStr TaskStatus.NOW ++ [' ']) = false →
        goContains l (statusStr TaskStatus.LATER ++ [' ']) = false →
        goContains l (statusStr TaskStatus.TODO ++ [' ']) = false →
        goContains l (statusStr TaskStatus.DOING ++ [' ']) = true →
        extractTaskStatus l = some TaskStatus.DOING) ∧
      (goContains l (statusStr TaskStatus.NOW ++ [' ']) = false →
        goContains l (statusStr TaskStatus.LATER ++ [' ']) = false →
        goContains l (statusStr TaskStatus.TODO ++ [' ']) = false →
        goContains l (statusStr TaskStatus.DOING ++ [' ']) = false →
        goContains l (statusStr TaskStatus.DONE ++ [' ']) = true →
        extractTaskStatus l = some TaskStatus.DONE) ∧
      (goContains l (statusStr TaskStatus.NOW ++ [' ']) = false →
        goContains l (statusStr TaskStatus.LATER ++ [' ']) = false →
        goContains l (statusStr TaskStatus.TODO ++ [' ']) = false →
        goContains l (statusStr TaskStatus.DOING ++ [' ']) = false →
        goContains l (statusStr TaskStatus.DONE ++ [' ']) = false →
        extractTaskStatus l = none)) := by
  have hps : ParseTasks content filePath =
      simpleTasksLoop filePath (content.splitOn '\n') 0 :=
    parseTasksLoop_no_logbook filePath (content.splitOn '\n')
      (content.splitOn '\n').length 0 le_rfl h
  refine ⟨?_, ?_, ?_⟩
  · intro i hi
    rw [hps]
    have hcnt := simpleTasksLoop_countP filePath (content.splitOn '\n') 0 i hi
    rw [show (0 : Nat) + i + 1 = i + 1 from by omega] at hcnt
    rw [hcnt]
    by_cases hst : (extractTaskStatus
        ((content.splitOn '\n').get ⟨i, hi⟩)).isSome = true
    · have hiff := candidate_bridge _ hst
      by_cases hb : isTaskLine ((content.splitOn '\n').get ⟨i, hi⟩) = true
      · rw [if_pos ⟨hb, hst⟩, if_pos ⟨hiff.mp hb, hst⟩]
      · rw [if_neg (fun hcon => hb hcon.1),
          if_neg (fun hcon => hb (hiff.mpr hcon.1))]
    · rw [if_neg (fun hcon => hst hcon.2), if_neg (fun hcon => hst hcon.2)]
  · intro t ht
    rw [hps] at ht
    rcases simpleTasksLoop_status filePath _ 0 t ht with ⟨j, hj, h1, h2⟩
    have h3 : t.lineNumber - 1 = j := by omega
    rw [h3]
    exact ⟨hj, h2⟩
  · intro l
    refine ⟨?_, ?_, ?_, ?_, ?_, ?_⟩
    · intro h1
      simp [extractTaskStatus, taskStatuses, List.find?, h1]
    · intro h1 h2
      simp [extractTaskStatus, taskStatuses, List.find?, h1, h2]
    · intro h1 h2 h3
      simp [extractTaskStatus, taskStatuses, List.find?, h1, h2, h3]
    · intro h1 h2 h3 h4
      simp [extractTaskStatus, taskStatuses, List.find?, h1, h2, h3, h4]
    · intro h1 h2 h3 h4 h5
      simp [extractTaskStatus, taskStatuses, List.find?, h1, h2, h3, h4, h5]
    · intro h1 h2 h3 h4 h5
      simp [extractTaskStatus, taskStatuses, List.find?, h1, h2, h3, h4, h5]

theorem c2_task_lines_witness :
    (∀ l ∈ (gs "- NOW hello").splitOn '\n',
      goContains l (gs ":LOGBOOK:") = false) ∧
    (ParseTasks (gs "- NOW hello") (gs "j.md")).countP
      (fun t => decide (t.lineNumber = 0 + 1)) = 1 := by
  refine ⟨by decide, ?_⟩
  have h := (c2_task_lines (gs "- NOW hello") (gs "j.md") (by decide)).1 0
    (by decide)
  rw [h]
  decide

end Logseq
